import Mathlib

/-!
Verification of the accesscontrol grant model (src/lib/utils.js,
src/lib/AccessControl.js, and the inner Access/Query classes).

The grant store is the nested mapping
  subject -> resource -> "action:possession" -> attribute list
plus a per-subject inheritance list stored under the reserved key
of the role entry.  JavaScript objects are modelled as association
lists (insertion-ordered, unique keys in reachable states); the
inheritance list (the reserved extend key of a role object) is kept
as a separate optional field of the role entry.  The glob attribute
algebra (the external library consumed as a primitive) is taken
as an abstract parameter wherever the source invokes its union.
All functions are executable; recursion through the role hierarchy
uses an explicit fuel parameter (the source relies on the store
being acyclic, which its own extend operation enforces).
-/

namespace AC

/-- Attribute list: ordered glob-pattern strings. -/
abbrev Attrs := List String

/-- Resource entry: mapping from action-possession key to attribute list. -/
abbrev ResEntry := List (String × Attrs)

/-- Role entry: the resource entries of a subject, plus the optional
inheritance list stored under the reserved extend key in the source. -/
structure RoleEntry where
  ext : Option (List String)
  res : List (String × ResEntry)
deriving Repr, DecidableEq

/-- The grant store: mapping from subject name to role entry. -/
abbrev Grants := List (String × RoleEntry)

/-! ## Association-list primitives (JavaScript object semantics) -/

/-- Key list of an association list. -/
def alKeys {α : Type} (l : List (String × α)) : List String :=
  l.map Prod.fst

/-- Property lookup (hasOwnProperty / member read). -/
def alFind {α : Type} (l : List (String × α)) (k : String) : Option α :=
  match l with
  | [] => Option.none
  | (k', v) :: t => if k' = k then some v else alFind t k

/-- hasOwnProperty. -/
def alHas {α : Type} (l : List (String × α)) (k : String) : Bool :=
  (alFind l k).isSome

/-- Property write: update in place if the key exists, else append
(JavaScript objects keep insertion order). -/
def alSet {α : Type} (l : List (String × α)) (k : String) (v : α) :
    List (String × α) :=
  match l with
  | [] => [(k, v)]
  | (k', v') :: t => if k' = k then (k, v) :: t else (k', v') :: alSet t k v

/-- Property deletion. -/
def alDel {α : Type} (l : List (String × α)) (k : String) :
    List (String × α) :=
  l.filter (fun p => p.1 ≠ k)

/-! ## Generic utils (utils.js) -/

/-- ASCII whitespace (the whitespace the JS string methods strip on
the names this model handles). -/
def isWS (c : Char) : Bool := c = ' ' || c = '\t' || c = '\n' || c = '\r'

/-- String.prototype.trim, computed structurally on the character
list so every store computation evaluates. -/
def strTrim (s : String) : String :=
  ⟨((s.data.dropWhile isWS).reverse.dropWhile isWS).reverse⟩

/-- The splitting loop of String.prototype.split on a one-character
separator class. -/
def splitGo (p : Char → Bool) : List Char → List Char → List String
  | [], acc => [⟨acc.reverse⟩]
  | c :: rest, acc =>
    if p c then ⟨acc.reverse⟩ :: splitGo p rest []
    else splitGo p rest (c :: acc)

/-- String.prototype.split on a one-character separator class (the
source only ever splits on comma/semicolon or on the colon). -/
def strSplit (s : String) (p : Char → Bool) : List String :=
  splitGo p s.data []

/-- String.prototype.toLowerCase (ASCII). -/
def strToLower (s : String) : String := ⟨s.data.map Char.toLower⟩

/-- String or string-array or absent value, as accepted by several
source functions (subject, resource, attributes fields). -/
inductive StrList where
  | none
  | str (s : String)
  | list (l : List String)
deriving Repr, DecidableEq

/-- utils.toStringArray on a string: trim, then split on comma or
semicolon separators together with their adjacent whitespace. -/
def splitTrimmed (s : String) : List String :=
  (strSplit (strTrim s) (fun c => c = ',' || c = ';')).map strTrim

/-- utils.toStringArray: arrays pass through, strings are split,
anything else becomes the empty array. -/
def toStringArray : StrList → List String
  | .none => []
  | .str s => splitTrimmed s
  | .list l => l

/-- utils.isFilledStringArray: an array whose items are all non-empty
strings (the empty array passes). -/
def isFilledStringArray (l : List String) : Bool :=
  l.all (fun s => ¬ strTrim s = "")

/-- utils.isEmptyArray on a StrList value: only an actual empty array
counts. -/
def isEmptyArrayV : StrList → Bool
  | .list [] => true
  | _ => false

/-- utils.pushUniq. -/
def pushUniq (arr : List String) (item : String) : List String :=
  if item ∈ arr then arr else arr ++ [item]

/-- utils.uniqConcat. -/
def uniqConcat (a b : List String) : List String :=
  b.foldl pushUniq a

/-- utils.subtractArray. -/
def subtractArray (a b : List String) : List String :=
  a.filter (fun x => x ∉ b)

/-- The reserved keywords of the model. -/
def RESERVED_KEYWORDS : List String := ["*", "!", "$", "_extend_"]

/-- utils.validName as a boolean (throwOnInvalid = false). -/
def validNameB (name : String) : Bool :=
  ¬ strTrim name = "" && ¬ name ∈ RESERVED_KEYWORDS

/-- JavaScript string-or-default used when the source concatenates a
possibly-undefined value into a key. -/
def jsStr : Option String → String
  | some s => s
  | Option.none => "undefined"

/-- JavaScript `a || b` over possibly-undefined strings: the empty
string is falsy. -/
def jsOrStr (a b : Option String) : Option String :=
  match a with
  | some s => if s = "" then b else some s
  | Option.none => b

/-! ## Errors

Every failure of the source is an AccessControlError carrying a
message; the constructors below carry the data the messages embed.
frozenWrite stands for the TypeError raised in strict mode when the
code assigns into (or extends) a deep-frozen grants object. -/

inductive AcErr where
  | lockErr
  | frozenWrite
  | invalidName (name : String)
  | reservedName (name : String)
  | invalidRoleDef
  | reservedResource (name : String)
  | invalidAttrsFor (action : String)
  | invalidExtendValue (subject : String)
  | invalidGrantsObject
  | invalidAction
  | invalidPossession (poss : String)
  | invalidSubjects
  | invalidResource
  | invalidResources
  | subjectNotFound (subject : String)
  | selfExtend (subject : String)
  | crossInheritance (who extendsWhom : String)
  | cannotInheritInvalid
  | nonExistentExt (subjects : List String)
  | removeNonExisting (subject : String)
  | emptyGrantsLock
  | internalErr
  | outOfFuel
deriving Repr, DecidableEq

/-- utils.validName with throwOnInvalid = true. -/
def validNameE (name : String) : Except AcErr Unit :=
  if strTrim name = "" then .error (.invalidName name)
  else if name ∈ RESERVED_KEYWORDS then .error (.reservedName name)
  else .ok ()

/-! ## Normalization (utils.normalizeActionPossession and friends) -/

/-- utils.normalizeActionPossession: split the compound action string,
lower-case the action part, take the possession from the explicit
field or the compound string, default to any, reject anything other
than own/any. -/
def normalizeAP (action possession : Option String) :
    Except AcErr (String × String) :=
  match action with
  | Option.none => .error .invalidAction
  | some act =>
    let s := strSplit act (fun c => c = ':')
    let a := strToLower (strTrim (s.headD ""))
    match jsOrStr possession (s.get? 1) with
    | some p =>
      if p = "" then .ok (a, "any")
      else if p = "any" ∨ p = "own" then .ok (a, p)
      else .error (.invalidPossession p)
    | Option.none => .ok (a, "any")

/-- An IQueryInfo draft (the raw fields a Query chain accumulates). -/
structure QueryInfo where
  subject : StrList
  resource : Option String
  action : Option String
  possession : Option String
deriving Repr, DecidableEq

/-- A normalized query. -/
structure NQuery where
  subject : List String
  resource : String
  action : String
  possession : String
deriving Repr, DecidableEq

/-- utils.normalizeQueryInfo: clone, normalize subject(s) into a
filled string array, require a non-empty trimmed resource string,
then normalize action/possession. -/
def normalizeQueryInfo (q : QueryInfo) : Except AcErr NQuery :=
  let subj := toStringArray q.subject
  if ¬ isFilledStringArray subj then .error .invalidSubjects
  else
    match q.resource with
    | Option.none => .error .invalidResource
    | some r =>
      if strTrim r = "" then .error .invalidResource
      else
        match normalizeAP q.action q.possession with
        | .error e => .error e
        | .ok (a, p) => .ok ⟨subj, strTrim r, a, p⟩

/-- An IAccessInfo draft (the raw fields an Access chain accumulates). -/
structure AccessInfo where
  subject : StrList
  resource : StrList
  attributes : StrList
  action : Option String
  possession : Option String
  denied : Bool
deriving Repr, DecidableEq

/-- A normalized access record.  When normalizeAll is false the
action/possession fields are passed through untouched (they may still
be raw or absent). -/
structure NAccess where
  subject : List String
  resource : List String
  attributes : List String
  action : Option String
  possession : Option String
  denied : Bool
deriving Repr, DecidableEq

/-- utils.normalizeAccessInfo: subjects and resources must normalize
to non-empty filled string arrays; attributes become the empty list
when denied or explicitly empty, default to the full wildcard when
absent or an empty (falsy) string, and are otherwise coerced through
toStringArray; action/possession are only normalized when all = true. -/
def normalizeAccessInfo (acc : AccessInfo) (all : Bool) :
    Except AcErr NAccess :=
  let subj := toStringArray acc.subject
  if subj = [] ∨ ¬ isFilledStringArray subj then .error .invalidSubjects
  else
    let res := toStringArray acc.resource
    if res = [] ∨ ¬ isFilledStringArray res then .error .invalidResources
    else
      let attrs :=
        if acc.denied ∨ isEmptyArrayV acc.attributes then ([] : Attrs)
        else
          match acc.attributes with
          | .none => ["*"]
          | .str "" => ["*"]
          | v => toStringArray v
      if all then
        match normalizeAP acc.action acc.possession with
        | .error e => .error e
        | .ok (a, p) => .ok ⟨subj, res, attrs, some a, some p, acc.denied⟩
      else .ok ⟨subj, res, attrs, acc.action, acc.possession, acc.denied⟩

/-! ## Role hierarchy resolver (utils.getRoleHierarchyOf etc.) -/

/-- The loop of utils.getRoleHierarchyOf over the extend list of a
subject: each extender must exist, must not be the subject itself,
must not be the root of the traversal (cross-inheritance guard), and
its own hierarchy (computed by the parameter function) is uniq-merged
into the accumulator. -/
def hierExts (g : Grants) (name : String) (root : Option String)
    (hier : String → Except AcErr (List String)) :
    List String → List String → Except AcErr (List String)
  | [], arr => .ok arr
  | ex :: rest, arr =>
    match alFind g ex with
    | Option.none => .error (.subjectNotFound ex)
    | some _ =>
      if ex = name then .error (.selfExtend name)
      else if root = some ex then
        .error (.crossInheritance ex (jsStr root))
      else
        match hier ex with
        | .error e => .error e
        | .ok e => hierExts g name root hier rest (uniqConcat arr e)

/-- utils.getRoleHierarchyOf: the ordered de-duplicated hierarchy of a
subject, starting with the subject itself; fails on an unknown
subject, self-extension or a loop back to the root.  The source has no
fuel (it relies on the store being acyclic); the fuel only bounds the
recursion depth in this embedding. -/
def getRoleHierarchyOf (g : Grants) (name : String)
    (root : Option String) : Nat → Except AcErr (List String)
  | 0 => .error .outOfFuel
  | fuel + 1 =>
    match alFind g name with
    | Option.none => .error (.subjectNotFound name)
    | some role =>
      let exts := role.ext.getD []
      if exts = [] then .ok [name]
      else
        hierExts g name root
          (fun ex =>
            getRoleHierarchyOf g ex (some ((root).getD name)) fuel)
          exts [name]

/-- The loop of utils.getFlatRoles. -/
def flatRolesLoop (g : Grants) (fuel : Nat) :
    List String → List String → Except AcErr (List String)
  | [], arr => .ok arr
  | n :: rest, arr =>
    match getRoleHierarchyOf g n Option.none fuel with
    | .error e => .error e
    | .ok h => flatRolesLoop g fuel rest (uniqConcat arr h)

/-- utils.getFlatRoles: the given subjects plus all their inherited
subjects, de-duplicated in first-seen order. -/
def getFlatRoles (g : Grants) (fuel : Nat) (subjects : StrList) :
    Except AcErr (List String) :=
  let arrRoles := toStringArray subjects
  if arrRoles = [] then .error .invalidSubjects
  else flatRolesLoop g fuel arrRoles (uniqConcat [] arrRoles)

/-- utils.getNonExistentRoles. -/
def getNonExistentRoles (g : Grants) (subjects : List String) :
    List String :=
  subjects.filter (fun s => ¬ alHas g s)

/-- utils.getCrossExtendingRole: the first extender whose hierarchy
already contains the subject (breaking out early when an extender
equals the subject itself, as the source loop does). -/
def getCrossExtendingRole (g : Grants) (subjectName : String)
    (fuel : Nat) : List String → Except AcErr (Option String)
  | [] => .ok Option.none
  | e :: rest =>
    if subjectName = e then .ok Option.none
    else
      match getRoleHierarchyOf g e Option.none fuel with
      | .error er => .error er
      | .ok inh =>
        if subjectName ∈ inh then .ok (some e)
        else getCrossExtendingRole g subjectName fuel rest

/-! ## Mutating operations on the grants object

Mutating functions return the (possibly partially mutated) grants
object along with the outcome; an error carries the state the store
was left in, exactly as a thrown exception leaves the live object.
The frozen flag models Object.isFrozen of the grants object: in
strict mode any write into a frozen object throws a TypeError. -/

/-- Outcome of a mutating step. -/
abbrev AcRes (α : Type) := Except AcErr α × Grants

/-- The per-subject loop of utils.extendRole: existence, self- and
cross-inheritance checks, then name validation, then the write of the
extend list (a union with the existing list, or a replacement). -/
def extendLoop (frozen : Bool) (fuel : Nat) (ext : List String)
    (replace : Bool) : List String → Grants → AcRes Unit
  | [], g => (.ok (), g)
  | n :: rest, g =>
    match alFind g n with
    | Option.none => (.error (.subjectNotFound n), g)
    | some role =>
      if n ∈ ext then (.error (.selfExtend n), g)
      else
        match getCrossExtendingRole g n fuel ext with
        | .error e => (.error e, g)
        | .ok (some c) => (.error (.crossInheritance c n), g)
        | .ok Option.none =>
          match validNameE n with
          | .error e => (.error e, g)
          | .ok _ =>
            if frozen then (.error .frozenWrite, g)
            else
              extendLoop frozen fuel ext replace rest
                (alSet g n
                  ⟨some (if replace then ext
                         else uniqConcat (role.ext.getD []) ext),
                   role.res⟩)

/-- utils.extendRole: validate the subject list, treat an explicitly
empty extender array as a no-op, require every extender to exist, then
run the per-subject loop. -/
def extendRole (frozen : Bool) (fuel : Nat)
    (subjects extenderRoles : StrList) (replace : Bool)
    (g : Grants) : AcRes Unit :=
  let sl := toStringArray subjects
  if sl = [] then (.error .invalidSubjects, g)
  else if isEmptyArrayV extenderRoles then (.ok (), g)
  else
    let ext := toStringArray extenderRoles
    if ext = [] then (.error .cannotInheritInvalid, g)
    else
      let non := getNonExistentRoles g ext
      if ¬ non = [] then (.error (.nonExistentExt non), g)
      else extendLoop frozen fuel ext replace sl g

/-- The loop of utils.preCreateRoles: validate each name, then create
an empty role entry for the names not present yet. -/
def preCreateLoop (frozen : Bool) : List String → Grants → AcRes Unit
  | [], g => (.ok (), g)
  | n :: rest, g =>
    match validNameE n with
    | .error e => (.error e, g)
    | .ok _ =>
      if alHas g n then preCreateLoop frozen rest g
      else if frozen then (.error .frozenWrite, g)
      else preCreateLoop frozen rest (alSet g n ⟨Option.none, []⟩)

/-- utils.preCreateRoles: a string argument is split, a missing or
empty-array argument is rejected, then the creation loop runs. -/
def preCreateRoles (frozen : Bool) (subjects : StrList) (g : Grants) :
    AcRes Unit :=
  let sl :=
    match subjects with
    | .str s => splitTrimmed s
    | .list l => l
    | .none => []
  if sl = [] then (.error .invalidSubjects, g)
  else preCreateLoop frozen sl g

/-- grants[subject] = emptyEntry when the subject is absent
(commitToGrants), refused on a frozen object. -/
def ensureSubject (frozen : Bool) (s : String) (g : Grants) :
    AcRes Unit :=
  if alHas g s then (.ok (), g)
  else if frozen then (.error .frozenWrite, g)
  else (.ok (), alSet g s ⟨Option.none, []⟩)

/-- grantItem[res] = emptyEntry when the resource is absent
(commitToGrants), refused on a frozen object. -/
def ensureResource (frozen : Bool) (s r : String) (g : Grants) :
    AcRes Unit :=
  match alFind g s with
  | Option.none => (.error .internalErr, g)
  | some role =>
    if alHas role.res r then (.ok (), g)
    else if frozen then (.error .frozenWrite, g)
    else (.ok (), alSet g s ⟨role.ext, alSet role.res r []⟩)

/-- grantItem[res][actionPossession] = attributes (commitToGrants),
refused on a frozen object. -/
def writePerm (frozen : Bool) (s r ap : String) (attrs : Attrs)
    (g : Grants) : AcRes Unit :=
  match alFind g s with
  | Option.none => (.error .internalErr, g)
  | some role =>
    match alFind role.res r with
    | Option.none => (.error .internalErr, g)
    | some re =>
      if frozen then (.error .frozenWrite, g)
      else (.ok (), alSet g s ⟨role.ext, alSet role.res r (alSet re ap attrs)⟩)

/-- The inner resource loop of utils.commitToGrants: validate the
resource name, create the resource entry if needed, write the
attribute list under the action-possession key. -/
def commitResLoop (frozen : Bool) (s ap : String) (attrs : Attrs) :
    List String → Grants → AcRes Unit
  | [], g => (.ok (), g)
  | r :: rest, g =>
    match validNameE r with
    | .error e => (.error e, g)
    | .ok _ =>
      match ensureResource frozen s r g with
      | (.error e, g') => (.error e, g')
      | (.ok _, g') =>
        match writePerm frozen s r ap attrs g' with
        | (.error e, g'') => (.error e, g'')
        | (.ok _, g'') => commitResLoop frozen s ap attrs rest g''

/-- The outer subject loop of utils.commitToGrants. -/
def commitSubjLoop (frozen : Bool) (ap : String) (attrs : Attrs)
    (resources : List String) : List String → Grants → AcRes Unit
  | [], g => (.ok (), g)
  | s :: rest, g =>
    match validNameE s with
    | .error e => (.error e, g)
    | .ok _ =>
      match ensureSubject frozen s g with
      | (.error e, g') => (.error e, g')
      | (.ok _, g') =>
        match commitResLoop frozen s ap attrs resources g' with
        | (.error e, g'') => (.error e, g'')
        | (.ok _, g'') => commitSubjLoop frozen ap attrs resources rest g''

/-- utils.commitToGrants: normalize the access record, then write the
attribute list for every subject × resource under the
action:possession key (string concatenation, so raw undefined parts
surface as the literal string the source would produce). -/
def commitToGrants (frozen : Bool) (access : AccessInfo)
    (normalizeAll : Bool) (g : Grants) : AcRes Unit :=
  match normalizeAccessInfo access normalizeAll with
  | .error e => (.error e, g)
  | .ok a =>
    let ap := jsStr a.action ++ ":" ++ jsStr a.possession
    commitSubjLoop frozen ap a.attributes a.resource a.subject g

/-- The sequential bulk commit used by getInspectedGrants on a flat
record list. -/
def commitAll : List AccessInfo → Grants → AcRes Unit
  | [], g => (.ok (), g)
  | a :: rest, g =>
    match commitToGrants false a true g with
    | (.error e, g') => (.error e, g')
    | (.ok _, g') => commitAll rest g'

/-! ## Query resolution (utils.getUnionAttrsOfRoles) -/

/-- The per-role lookup of getUnionAttrsOfRoles: the exact
action:possession key, falling back to the action:any key when the
exact key is absent (an empty list stored under the exact key is
found, not fallen through — empty arrays are truthy). -/
def apLookup (re : ResEntry) (a p : String) : Attrs :=
  match alFind re (a ++ ":" ++ p) with
  | some l => l
  | Option.none => (alFind re (a ++ ":any")).getD []

/-- Collect the per-role attribute lists, in role order, skipping
roles that have no entry for the resource. -/
def collectAttrsLists (g : Grants) (resource a p : String) :
    List String → List Attrs
  | [] => []
  | n :: rest =>
    match alFind g n with
    | Option.none => collectAttrsLists g resource a p rest
    | some role =>
      match alFind role.res resource with
      | Option.none => collectAttrsLists g resource a p rest
      | some re => apLookup re a p :: collectAttrsLists g resource a p rest

/-- The left-to-right pairwise union of the collected lists through
the glob algebra ([] when nothing was collected). -/
def unionAll (globUnion : Attrs → Attrs → Attrs) : List Attrs → Attrs
  | [] => []
  | x :: rest => rest.foldl globUnion x

/-- utils.getUnionAttrsOfRoles: normalize the query, flatten the
subjects to the effective role set, collect each role's attribute
list for the resource (with the own→any fallback) and union them
through the glob attribute algebra. -/
def getUnionAttrsOfRoles (globUnion : Attrs → Attrs → Attrs)
    (fuel : Nat) (g : Grants) (q : QueryInfo) : Except AcErr Attrs :=
  match normalizeQueryInfo q with
  | .error e => .error e
  | .ok nq =>
    match getFlatRoles g fuel (.list nq.subject) with
    | .error e => .error e
    | .ok roles =>
      .ok (unionAll globUnion
        (collectAttrsLists g nq.resource nq.action nq.possession roles))

/-- The resolved permission decision object. -/
structure Permission where
  subjects : List String
  resource : String
  attributes : Attrs
  granted : Bool
deriving Repr, DecidableEq

/-- Modelled from the spec: the Permission class implementation is not
under src/ (only its .d.ts declaration is).  Per spec section 4.4 the
constructor resolves the attribute union via the query engine, exposes
the normalized subjects and resource, and sets granted exactly when
the final unioned attribute list is non-empty. -/
def mkPermission (globUnion : Attrs → Attrs → Attrs) (fuel : Nat)
    (g : Grants) (q : QueryInfo) : Except AcErr Permission :=
  match getUnionAttrsOfRoles globUnion fuel g q with
  | .error e => .error e
  | .ok attrs =>
    match normalizeQueryInfo q with
    | .error e => .error e
    | .ok nq => .ok ⟨nq.subject, nq.resource, attrs, decide (¬ attrs = [])⟩

/-- Query._getPermission reached through can(subject).action(resource):
the chain fills subject, action, possession and resource of the draft
query and builds a Permission from the grants. -/
def canAction (globUnion : Attrs → Attrs → Attrs) (fuel : Nat)
    (g : Grants) (subject : StrList) (action possession resource : String) :
    Except AcErr Permission :=
  mkPermission globUnion fuel g ⟨subject, some resource, some action, some possession⟩

/-! ## Bulk-load validation (utils.getInspectedGrants) -/

/-- utils.validResourceObject: every action-possession key must map to
an empty array or a filled string array; the key itself is split but
never checked further in this source. -/
def validResourceObjectE (re : ResEntry) : Except AcErr Unit :=
  match re with
  | [] => .ok ()
  | (k, attrs) :: rest =>
    if attrs = [] ∨ isFilledStringArray attrs then validResourceObjectE rest
    else .error (.invalidAttrsFor k)

/-- utils.validRoleObject: each key of the subject is a valid resource
name whose value is validated, or the reserved extend key, whose value
must be a filled string array and is applied through extendRole. -/
def validRoleObjectM (fuel : Nat) (subjectName : String) (g : Grants) :
    AcRes Unit :=
  match alFind g subjectName with
  | Option.none => (.error .invalidRoleDef, g)
  | some role =>
    match
      (role.res.foldl
        (fun (acc : Except AcErr Unit) (p : String × ResEntry) =>
          match acc with
          | .error e => .error e
          | .ok _ =>
            if validNameB p.1 then validResourceObjectE p.2
            else .error (.reservedResource p.1)) (.ok ())) with
    | .error e => (.error e, g)
    | .ok _ =>
      match role.ext with
      | Option.none => (.ok (), g)
      | some extRoles =>
        if ¬ isFilledStringArray extRoles then
          (.error (.invalidExtendValue subjectName), g)
        else
          extendRole false fuel (.str subjectName) (.list extRoles) false g

/-- The subject loop of getInspectedGrants on a structured mapping. -/
def inspectRoles (fuel : Nat) : List String → Grants → AcRes Unit
  | [], g => (.ok (), g)
  | n :: rest, g =>
    match validNameE n with
    | .error e => (.error e, g)
    | .ok _ =>
      match validRoleObjectM fuel n g with
      | (.error e, g') => (.error e, g')
      | (.ok _, g') => inspectRoles fuel rest g'

/-- Bulk-load input: a nested mapping in the canonical shape, or a
flat ordered list of access records. -/
inductive GrantsInput where
  | mapping (g : Grants)
  | records (l : List AccessInfo)
deriving Repr

/-- utils.getInspectedGrants: a mapping is validated in place (which
also applies its inheritance declarations); an array is committed
record by record into a fresh empty store.  The fuel for the
inheritance traversals is derived from the input size, which bounds
the hierarchy depth of any acyclic store. -/
def getInspectedGrants : GrantsInput → Except AcErr Grants
  | .mapping o =>
    match inspectRoles (o.length + 1) (alKeys o) o with
    | (.ok _, g') => .ok g'
    | (.error e, _) => .error e
  | .records l =>
    match commitAll l [] with
    | (.ok _, g) => .ok g
    | (.error e, _) => .error e

/-! ## The AccessControl facade (AccessControl.js)

The instance state is the grants object plus the private locked flag
and the frozen-ness of the grants object; the public isLocked getter
is the conjunction of the two. -/

structure ACState where
  grants : Grants
  lockedFlag : Bool
  frozen : Bool
deriving Repr, DecidableEq

/-- AccessControl#isLocked: the private flag and Object.isFrozen of
the grants object. -/
def isLockedState (st : ACState) : Bool :=
  st.lockedFlag && st.frozen

/-- utils.lockAC: reject an empty grants model, deep-freeze the grants
object unless already locked, then set the private flag. -/
def lockAC (st : ACState) : Except AcErr ACState :=
  if st.grants.length = 0 then .error .emptyGrantsLock
  else
    let locked := isLockedState st
    if locked then .ok ⟨st.grants, true, st.frozen⟩
    else .ok ⟨st.grants, true, true⟩

/-- Facade lock() keeping the failed state explicit. -/
def lockF (st : ACState) : Except AcErr Unit × ACState :=
  match lockAC st with
  | .ok st' => (.ok (), st')
  | .error e => (.error e, st)

/-- AccessControl#setGrants: refuse when locked, otherwise replace the
grants with the inspected input (a fresh, unfrozen object). -/
def setGrantsF (inp : GrantsInput) (st : ACState) :
    Except AcErr Unit × ACState :=
  if isLockedState st then (.error .lockErr, st)
  else
    match getInspectedGrants inp with
    | .error e => (.error e, st)
    | .ok g => (.ok (), ⟨g, st.lockedFlag, false⟩)

/-- AccessControl#reset: refuse when locked, otherwise replace the
grants with a fresh empty object. -/
def resetF (st : ACState) : Except AcErr Unit × ACState :=
  if isLockedState st then (.error .lockErr, st)
  else (.ok (), ⟨[], st.lockedFlag, false⟩)

/-- AccessControl#extendRole: refuse when locked, then delegate to
utils.extendRole on the live grants object. -/
def extendRoleF (subjects extenderRoles : StrList) (replace : Bool)
    (st : ACState) : Except AcErr Unit × ACState :=
  if isLockedState st then (.error .lockErr, st)
  else
    match
      extendRole st.frozen (st.grants.length + 1) subjects extenderRoles
        replace st.grants with
    | (r, g') => (r, ⟨g', st.lockedFlag, st.frozen⟩)

/-- The deletion loop of AccessControl#removeRoles: each named subject
must exist and is deleted in turn (a later missing name throws after
the earlier deletions already happened). -/
def removeLoop (frozen : Bool) : List String → Grants → AcRes Unit
  | [], g => (.ok (), g)
  | n :: rest, g =>
    match alFind g n with
    | Option.none => (.error (.removeNonExisting n), g)
    | some _ =>
      if frozen then (.error .frozenWrite, g)
      else removeLoop frozen rest (alDel g n)

/-- The pruning loop of AccessControl#removeRoles: strip the removed
names out of every remaining subject's extend list. -/
def pruneLoop (frozen : Bool) (removed : List String) :
    List String → Grants → AcRes Unit
  | [], g => (.ok (), g)
  | n :: rest, g =>
    match alFind g n with
    | Option.none => pruneLoop frozen removed rest g
    | some role =>
      match role.ext with
      | Option.none => pruneLoop frozen removed rest g
      | some l =>
        if frozen then (.error .frozenWrite, g)
        else
          pruneLoop frozen removed rest
            (alSet g n ⟨some (subtractArray l removed), role.res⟩)

/-- AccessControl#removeRoles. -/
def removeRolesF (subjects : StrList) (st : ACState) :
    Except AcErr Unit × ACState :=
  if isLockedState st then (.error .lockErr, st)
  else
    let sl := toStringArray subjects
    if sl = [] ∨ ¬ isFilledStringArray sl then (.error .invalidSubjects, st)
    else
      match removeLoop st.frozen sl st.grants with
      | (.error e, g') => (.error e, ⟨g', st.lockedFlag, st.frozen⟩)
      | (.ok _, g') =>
        match pruneLoop st.frozen sl (alKeys g') g' with
        | (r, g'') => (r, ⟨g'', st.lockedFlag, st.frozen⟩)

/-- The per-subject sweep of AccessControl#_removePermission without an
action-possession argument: delete every matched resource entry (and
the reserved extend key when it is named as a resource). -/
def removeResLoop (frozen : Bool) (rl : List String)
    (slOpt : Option (List String)) : List String → Grants → AcRes Unit
  | [], g => (.ok (), g)
  | n :: rest, g =>
    match alFind g n with
    | Option.none => removeResLoop frozen rl slOpt rest g
    | some role =>
      if slOpt.getD [n] |>.elem n then
        let newRes := role.res.filter (fun p => p.1 ∉ rl)
        let newExt := if "_extend_" ∈ rl then Option.none else role.ext
        if newRes = role.res ∧ newExt = role.ext then
          removeResLoop frozen rl slOpt rest g
        else if frozen then (.error .frozenWrite, g)
        else removeResLoop frozen rl slOpt rest (alSet g n ⟨newExt, newRes⟩)
      else removeResLoop frozen rl slOpt rest g

/-- AccessControl#removeResources (via _removePermission). -/
def removeResourcesF (resources : StrList) (subjects : Option StrList)
    (st : ACState) : Except AcErr Unit × ACState :=
  if isLockedState st then (.error .lockErr, st)
  else
    let rl := toStringArray resources
    if rl = [] ∨ ¬ isFilledStringArray rl then (.error .invalidResources, st)
    else
      match subjects with
      | some sv =>
        let sl := toStringArray sv
        if sl = [] ∨ ¬ isFilledStringArray sl then (.error .invalidSubjects, st)
        else
          match removeResLoop st.frozen rl (some sl) (alKeys st.grants) st.grants with
          | (r, g') => (r, ⟨g', st.lockedFlag, st.frozen⟩)
      | Option.none =>
        match removeResLoop st.frozen rl Option.none (alKeys st.grants) st.grants with
        | (r, g') => (r, ⟨g', st.lockedFlag, st.frozen⟩)

/-- AccessControl#grant with a subject string/array (or omitted):
refuse when locked, pre-create the named subjects, and hand back the
draft access record of the new Access builder. -/
def grantF (subject : StrList) (st : ACState) :
    Except AcErr AccessInfo × ACState :=
  if isLockedState st then (.error .lockErr, st)
  else
    match subject with
    | .none =>
      (.ok ⟨.none, .none, .none, Option.none, Option.none, false⟩, st)
    | v =>
      match preCreateRoles st.frozen v st.grants with
      | (.error e, g') => (.error e, ⟨g', st.lockedFlag, st.frozen⟩)
      | (.ok _, g') =>
        (.ok ⟨v, .none, .none, Option.none, Option.none, false⟩,
         ⟨g', st.lockedFlag, st.frozen⟩)

/-- AccessControl#deny: as grant, with the denied polarity. -/
def denyF (subject : StrList) (st : ACState) :
    Except AcErr AccessInfo × ACState :=
  if isLockedState st then (.error .lockErr, st)
  else
    match subject with
    | .none =>
      (.ok ⟨.none, .none, .none, Option.none, Option.none, true⟩, st)
    | v =>
      match preCreateRoles st.frozen v st.grants with
      | (.error e, g') => (.error e, ⟨g', st.lockedFlag, st.frozen⟩)
      | (.ok _, g') =>
        (.ok ⟨v, .none, .none, Option.none, Option.none, true⟩,
         ⟨g', st.lockedFlag, st.frozen⟩)

/-- Access._prepareAndCommit: fix action and possession on the draft,
override the resource when one is passed (a truthy value), force empty
attributes on a denial and default absent ones to the full wildcard,
commit without re-normalizing action/possession, then reset the
draft's attributes. -/
def prepareAndCommit (frozen : Bool) (draft : AccessInfo)
    (action : String) (possession : Option String)
    (resource attributes : StrList) (g : Grants) : AcRes AccessInfo :=
  let newRes : StrList :=
    match resource with
    | .none => draft.resource
    | .str "" => draft.resource
    | v => v
  let newAttrs : StrList :=
    if draft.denied then .list []
    else
      match attributes with
      | .none => .list ["*"]
      | .str "" => .list ["*"]
      | v => .list (toStringArray v)
  match commitToGrants frozen
      ⟨draft.subject, newRes, newAttrs, some action, possession, draft.denied⟩
      false g with
  | (.error e, g') => (.error e, g')
  | (.ok _, g') =>
    (.ok ⟨draft.subject, newRes, .none, some action, possession, draft.denied⟩,
     g')

/-- An Access-builder commit applied to the live instance state (the
builder holds a reference to the grants object, so a builder obtained
before locking still reaches the frozen object). -/
def accessCommitF (draft : AccessInfo) (action : String)
    (possession : Option String) (resource attributes : StrList)
    (st : ACState) : Except AcErr AccessInfo × ACState :=
  match prepareAndCommit st.frozen draft action possession resource
      attributes st.grants with
  | (r, g') => (r, ⟨g', st.lockedFlag, st.frozen⟩)

/-- AccessControl#permission / can(...).action(...): a pure read of the
instance state producing a Permission. -/
def permissionF (globUnion : Attrs → Attrs → Attrs) (q : QueryInfo)
    (st : ACState) : Except AcErr Permission × ACState :=
  (mkPermission globUnion (st.grants.length + 1) st.grants q, st)

/-! ## The mutating operations as a step relation (for the locking
claims) -/

/-- Every mutating operation of the public surface, with its
arguments; commitOp is a commit through an Access builder (obtained
at any time, since builders reach the live grants object). -/
inductive MutOp where
  | setGrantsOp (inp : GrantsInput)
  | resetOp
  | grantOp (subject : StrList)
  | denyOp (subject : StrList)
  | extendRoleOp (subjects extenderRoles : StrList) (replace : Bool)
  | removeRolesOp (subjects : StrList)
  | removeResourcesOp (resources : StrList) (subjects : Option StrList)
  | commitOp (draft : AccessInfo) (action : String)
      (possession : Option String) (resource attributes : StrList)

/-- Run one mutating operation on the instance state. -/
def runMutOp (op : MutOp) (st : ACState) : Except AcErr Unit × ACState :=
  match op with
  | .setGrantsOp inp => setGrantsF inp st
  | .resetOp => resetF st
  | .grantOp s =>
    match grantF s st with
    | (.error e, st') => (.error e, st')
    | (.ok _, st') => (.ok (), st')
  | .denyOp s =>
    match denyF s st with
    | (.error e, st') => (.error e, st')
    | (.ok _, st') => (.ok (), st')
  | .extendRoleOp s e r => extendRoleF s e r st
  | .removeRolesOp s => removeRolesF s st
  | .removeResourcesOp r s => removeResourcesF r s st
  | .commitOp d a p r at_ =>
    match accessCommitF d a p r at_ st with
    | (.error e, st') => (.error e, st')
    | (.ok _, st') => (.ok (), st')

/-- Whether the operation goes through the facade's locked-state guard
(as opposed to a commit through a previously obtained builder). -/
def isFacadeOp : MutOp → Bool
  | .commitOp _ _ _ _ _ => false
  | _ => true

/-- Run a sequence of mutating operations. -/
def execOps (ops : List MutOp) (st : ACState) : ACState :=
  ops.foldl (fun s op => (runMutOp op s).2) st

/-! ## Derived notions used by the claims -/

deriving instance DecidableEq for Except

/-- Triple lookup into a store: the attribute list stored for subject
s, resource r, action-possession key k, if any. -/
def lookup3 (g : Grants) (s r k : String) : Option Attrs :=
  match alFind g s with
  | Option.none => Option.none
  | some role =>
    match alFind role.res r with
    | Option.none => Option.none
    | some re => alFind re k

/-- A store transition that can only add or overwrite entries whose
action-possession key is K, at subjects and resources with validated
names; every other stored key must already have been present. -/
def onlyAddsKey (g g' : Grants) (K : String) : Prop :=
  ∀ s r k, ¬ lookup3 g' s r k = Option.none →
    ¬ lookup3 g s r k = Option.none
    ∨ (validNameB s = true ∧ validNameB r = true ∧ k = K)

/-- The normalized action-possession key shape asserted by the spec:
action one of the four CRUD words, possession own or any.  (This
follows the spec's words; the source never enforces it.) -/
def claimNormalizedKey (k : String) : Bool :=
  match strSplit k (fun c => c = ':') with
  | [a, p] =>
    (a = "create" ∨ a = "read" ∨ a = "update" ∨ a = "delete")
    ∧ (p = "own" ∨ p = "any")
  | _ => false

/-- A key that round-trips through the source's action/possession
normalization: normalizing it back yields exactly the same compound
key.  Every key the commit path writes has this property. -/
def apRoundTrip (k : String) : Bool :=
  match normalizeAP (some k) Option.none with
  | .ok (a, p) => a ++ ":" ++ p = k
  | .error _ => false

/-- One flat grant record, as produced for a store entry. -/
def recordOf (s r k : String) (attrs : Attrs) : AccessInfo :=
  ⟨.list [s], .list [r], .list attrs, some k, Option.none, false⟩

/-- The flat records of one resource entry. -/
def recordsOfRes (s r : String) (re : ResEntry) : List AccessInfo :=
  re.map (fun p => recordOf s r p.1 p.2)

/-- The flat records of one role entry. -/
def recordsOfRole (s : String) (role : RoleEntry) : List AccessInfo :=
  role.res.flatMap (fun p => recordsOfRes s p.1 p.2)

/-- The flat record list describing the same logical grants as a
nested mapping: one record per subject × resource × key, in store
order, with the compound action:possession key as the action. -/
def recordsOfGrants (g : Grants) : List AccessInfo :=
  g.flatMap (fun p => recordsOfRole p.1 p.2)

/-- No duplicate keys in an association list. -/
def nodupKeys {α : Type} (l : List (String × α)) : Prop :=
  (alKeys l).Nodup

instance {α : Type} (l : List (String × α)) : Decidable (nodupKeys l) := by
  unfold nodupKeys; infer_instance

/-- A resource entry expressible in flat-record form and accepted by
the nested-input validation: at least one key, unique keys, every key
round-tripping through normalization, every attribute list empty or
filled. -/
def canonRes (re : ResEntry) : Prop :=
  ¬ re = [] ∧ nodupKeys re ∧
  ∀ p ∈ re, apRoundTrip p.1 = true ∧ (p.2 = [] ∨ isFilledStringArray p.2 = true)

/-- A role entry expressible in flat-record form: no inheritance, at
least one resource, unique valid resource names, canonical resource
entries. -/
def canonRole (role : RoleEntry) : Prop :=
  role.ext = Option.none ∧ ¬ role.res = [] ∧ nodupKeys role.res ∧
  ∀ p ∈ role.res, validNameB p.1 = true ∧ canonRes p.2

/-- A nested mapping expressible in flat-record form: unique valid
subject names and canonical role entries. -/
def canonGrants (g : Grants) : Prop :=
  nodupKeys g ∧ ∀ p ∈ g, validNameB p.1 = true ∧ canonRole p.2

instance (re : ResEntry) : Decidable (canonRes re) := by
  unfold canonRes; infer_instance

instance (role : RoleEntry) : Decidable (canonRole role) := by
  unfold canonRole; infer_instance

instance (g : Grants) : Decidable (canonGrants g) := by
  unfold canonGrants; infer_instance

/-- The one-record store transform performed by a successful commit of
a single-subject single-resource record. -/
def gWrite (g : Grants) (s r k : String) (attrs : Attrs) : Grants :=
  match alFind g s with
  | Option.none => alSet g s ⟨Option.none, [(r, [(k, attrs)])]⟩
  | some role =>
    match alFind role.res r with
    | Option.none => alSet g s ⟨role.ext, alSet role.res r [(k, attrs)]⟩
    | some re => alSet g s ⟨role.ext, alSet role.res r (alSet re k attrs)⟩

/-- A concrete canonical store: two subjects, mixed resources, grant
and deny entries. -/
def g8sample : Grants :=
  [("admin", ⟨Option.none,
      [("profile", [("create:any", ["*"]), ("read:own", ["id", "name"])]),
       ("video", [("delete:own", [])])]⟩),
   ("user", ⟨Option.none, [("profile", [("read:any", ["id"])])]⟩)]

/-! ## Association-list lemmas -/

theorem alFind_alSet_self {α : Type} (l : List (String × α)) (k : String)
    (v : α) : alFind (alSet l k v) k = some v := by
  induction l with
  | nil => simp [alSet, alFind]
  | cons p t ih =>
    by_cases h : p.1 = k
    · simp [alSet, h, alFind]
    · simp only [alSet]
      rw [show ((p.1, p.2) : String × α) = p from rfl]
      simp only [h, if_false]
      simpa [alFind, h] using ih

theorem alFind_alSet_ne {α : Type} (l : List (String × α)) (k k' : String)
    (v : α) (h : ¬ k = k') : alFind (alSet l k v) k' = alFind l k' := by
  induction l with
  | nil => simp [alSet, alFind, h]
  | cons p t ih =>
    by_cases hp : p.1 = k
    · simp [alSet, hp, alFind, h]
    · simp only [alSet]
      rw [show ((p.1, p.2) : String × α) = p from rfl]
      simp only [hp, if_false]
      by_cases hk' : p.1 = k'
      · simp [alFind, hk']
      · simpa [alFind, hk'] using ih

theorem alSet_alSet {α : Type} (l : List (String × α)) (k : String)
    (v w : α) : alSet (alSet l k v) k w = alSet l k w := by
  induction l with
  | nil => simp [alSet]
  | cons p t ih =>
    by_cases h : p.1 = k
    · simp [alSet, h]
    · simp only [alSet]
      rw [show ((p.1, p.2) : String × α) = p from rfl]
      simp only [h, if_false]
      simp [alSet, h, ih]

theorem alSet_absent {α : Type} (l : List (String × α)) (k : String)
    (v : α) (h : k ∉ alKeys l) : alSet l k v = l ++ [(k, v)] := by
  induction l with
  | nil => simp [alSet]
  | cons p t ih =>
    simp only [alKeys, List.map_cons, List.mem_cons] at h
    push_neg at h
    simp only [alSet]
    rw [show ((p.1, p.2) : String × α) = p from rfl]
    have : ¬ p.1 = k := fun hh => h.1 hh.symm
    simp only [this, if_false]
    rw [ih (by simpa [alKeys] using h.2)]
    simp

theorem alFind_absent {α : Type} (l : List (String × α)) (k : String)
    (h : k ∉ alKeys l) : alFind l k = Option.none := by
  induction l with
  | nil => simp [alFind]
  | cons p t ih =>
    obtain ⟨k', v'⟩ := p
    simp only [alKeys, List.map_cons, List.mem_cons] at h
    push_neg at h
    have hk : ¬ k' = k := fun hh => h.1 hh.symm
    simp only [alFind, hk, if_false]
    exact ih (by simpa [alKeys] using h.2)

theorem alFind_append_absent {α : Type} (l₁ l₂ : List (String × α))
    (k : String) (h : k ∉ alKeys l₁) :
    alFind (l₁ ++ l₂) k = alFind l₂ k := by
  induction l₁ with
  | nil => simp
  | cons p t ih =>
    obtain ⟨k', v'⟩ := p
    simp only [alKeys, List.map_cons, List.mem_cons] at h
    push_neg at h
    have hk : ¬ k' = k := fun hh => h.1 hh.symm
    simp only [List.cons_append, alFind, hk, if_false]
    exact ih (by simpa [alKeys] using h.2)

theorem alFind_append_mid {α : Type} (l₁ l₂ : List (String × α))
    (k : String) (v : α) (h : k ∉ alKeys l₁) :
    alFind (l₁ ++ (k, v) :: l₂) k = some v := by
  rw [alFind_append_absent _ _ _ h]; simp [alFind]

theorem alSet_append_mid {α : Type} (l₁ l₂ : List (String × α))
    (k : String) (v w : α) (h : k ∉ alKeys l₁) :
    alSet (l₁ ++ (k, v) :: l₂) k w = l₁ ++ (k, w) :: l₂ := by
  induction l₁ with
  | nil => simp [alSet]
  | cons p t ih =>
    obtain ⟨k', v'⟩ := p
    simp only [alKeys, List.map_cons, List.mem_cons] at h
    push_neg at h
    have hk : ¬ k' = k := fun hh => h.1 hh.symm
    simp only [List.cons_append, alSet, hk, if_false]
    rw [show (t.append ((k, v) :: l₂)) = t ++ (k, v) :: l₂ from rfl,
      ih (by simpa [alKeys] using h.2)]

/-! ## uniqConcat lemmas -/

theorem pushUniq_subset (arr : List String) (x y : String)
    (h : x ∈ arr) : x ∈ pushUniq arr y := by
  unfold pushUniq
  by_cases hy : y ∈ arr <;> simp [hy, h]

theorem pushUniq_mem (arr : List String) (y : String) :
    y ∈ pushUniq arr y := by
  unfold pushUniq
  by_cases hy : y ∈ arr <;> simp [hy]

theorem foldl_pushUniq_left (b : List String) (a : List String)
    (x : String) (h : x ∈ a) : x ∈ List.foldl pushUniq a b := by
  induction b generalizing a with
  | nil => simpa
  | cons y t ih => exact ih _ (pushUniq_subset _ _ _ h)

theorem uniqConcat_subset_left (a b : List String) (x : String)
    (h : x ∈ a) : x ∈ uniqConcat a b :=
  foldl_pushUniq_left b a x h

theorem uniqConcat_subset_right (a b : List String) (x : String)
    (h : x ∈ b) : x ∈ uniqConcat a b := by
  unfold uniqConcat
  induction b generalizing a with
  | nil => cases h
  | cons y t ih =>
    rcases List.mem_cons.mp h with h | h
    · subst h
      exact foldl_pushUniq_left t (pushUniq a x) x (pushUniq_mem _ _)
    · exact ih _ h

/-! ## Claim theorems -/

/-- Evaluation helper: a permission query unfolds through its three
computational stages; the union function is only applied by unionAll
on the collected per-role lists. -/
theorem mkPermission_eval (u : Attrs → Attrs → Attrs) (fuel : Nat)
    (g : Grants) (q : QueryInfo) (nq : NQuery) (roles : List String)
    (lists : List Attrs)
    (h1 : normalizeQueryInfo q = .ok nq)
    (h2 : getFlatRoles g fuel (.list nq.subject) = .ok roles)
    (h3 : collectAttrsLists g nq.resource nq.action nq.possession roles
        = lists) :
    mkPermission u fuel g q
      = .ok ⟨nq.subject, nq.resource, unionAll u lists,
          decide (¬ unionAll u lists = [])⟩ := by
  simp only [mkPermission, getUnionAttrsOfRoles, h1, h2, h3]

/-- C1: on an initially empty store, grant('admin').createAny('profile')
makes can('admin').createAny('profile') granted with attributes ['*']
(the default when attributes are omitted on a grant); a subsequent
deny('admin').createAny('profile') overwrites the entry with the empty
attribute list, and the same query is then not granted with empty
attributes. -/
theorem claim1_grant_deny_scenario (globUnion : Attrs → Attrs → Attrs) :
    grantF (.str "admin") ⟨[], false, false⟩
      = (.ok ⟨.str "admin", .none, .none, Option.none, Option.none, false⟩,
         ⟨[("admin", ⟨Option.none, []⟩)], false, false⟩)
    ∧ accessCommitF
        ⟨.str "admin", .none, .none, Option.none, Option.none, false⟩
        "create" (some "any") (.str "profile") .none
        ⟨[("admin", ⟨Option.none, []⟩)], false, false⟩
      = (.ok ⟨.str "admin", .str "profile", .none, some "create", some "any",
          false⟩,
         ⟨[("admin", ⟨Option.none, [("profile", [("create:any", ["*"])])]⟩)],
          false, false⟩)
    ∧ permissionF globUnion
        ⟨.str "admin", some "profile", some "create", some "any"⟩
        ⟨[("admin", ⟨Option.none, [("profile", [("create:any", ["*"])])]⟩)],
         false, false⟩
      = (.ok ⟨["admin"], "profile", ["*"], true⟩,
         ⟨[("admin", ⟨Option.none, [("profile", [("create:any", ["*"])])]⟩)],
          false, false⟩)
    ∧ denyF (.str "admin")
        ⟨[("admin", ⟨Option.none, [("profile", [("create:any", ["*"])])]⟩)],
         false, false⟩
      = (.ok ⟨.str "admin", .none, .none, Option.none, Option.none, true⟩,
         ⟨[("admin", ⟨Option.none, [("profile", [("create:any", ["*"])])]⟩)],
          false, false⟩)
    ∧ accessCommitF
        ⟨.str "admin", .none, .none, Option.none, Option.none, true⟩
        "create" (some "any") (.str "profile") .none
        ⟨[("admin", ⟨Option.none, [("profile", [("create:any", ["*"])])]⟩)],
         false, false⟩
      = (.ok ⟨.str "admin", .str "profile", .none, some "create", some "any",
          true⟩,
         ⟨[("admin", ⟨Option.none, [("profile", [("create:any", [])])]⟩)],
          false, false⟩)
    ∧ permissionF globUnion
        ⟨.str "admin", some "profile", some "create", some "any"⟩
        ⟨[("admin", ⟨Option.none, [("profile", [("create:any", [])])]⟩)],
         false, false⟩
      = (.ok ⟨["admin"], "profile", [], false⟩,
         ⟨[("admin", ⟨Option.none, [("profile", [("create:any", [])])]⟩)],
          false, false⟩) := by
  refine ⟨by decide, by decide, ?_, by decide, by decide, ?_⟩
  · show (mkPermission globUnion 2 _ _, _) = _
    rw [mkPermission_eval globUnion 2 _ _ ⟨["admin"], "profile", "create", "any"⟩
      ["admin"] [["*"]] (by decide) (by decide) (by decide)]
    rfl
  · show (mkPermission globUnion 2 _ _, _) = _
    rw [mkPermission_eval globUnion 2 _ _ ⟨["admin"], "profile", "create", "any"⟩
      ["admin"] [[]] (by decide) (by decide) (by decide)]
    rfl

/-- C1 witness: the scenario at a concrete union function. -/
theorem claim1_witness :
    permissionF (fun a _ => a)
        ⟨.str "admin", some "profile", some "create", some "any"⟩
        ⟨[("admin", ⟨Option.none, [("profile", [("create:any", ["*"])])]⟩)],
         false, false⟩
      = (.ok ⟨["admin"], "profile", ["*"], true⟩,
         ⟨[("admin", ⟨Option.none, [("profile", [("create:any", ["*"])])]⟩)],
          false, false⟩) :=
  (claim1_grant_deny_scenario (fun a _ => a)).2.2.1

/-- C2 counterexample: a store in which role X has a read:any entry
(with the empty, denied attribute list) and no read:own entry, yet
can(X).readOwn(R) is NOT granted — the claim asserts granted for every
such store. -/
theorem claim2_counterexample :
    canAction (fun a _ => a) 2
      [("X", ⟨Option.none, [("R", [("read:any", [])])]⟩)]
      (.str "X") "read" "own" "R"
      = .ok ⟨["X"], "R", [], false⟩ := by decide

/-- C2 (amended): when role X additionally extends no other roles and
the read:any list is non-empty, an own query falls back to the any
grant: can(X).readOwn(R) is granted with exactly the attributes of
can(X).readAny(R). -/
theorem claim2_own_any_fallback (u : Attrs → Attrs → Attrs) (fuel : Nat)
    (g : Grants) (X R : String) (role : RoleEntry) (re : ResEntry)
    (l : Attrs)
    (hfuel : 0 < fuel)
    (hX : splitTrimmed X = [X])
    (hXt : ¬ strTrim X = "")
    (hRt : strTrim R = R)
    (hR : ¬ R = "")
    (hrole : alFind g X = some role)
    (hext : role.ext.getD [] = [])
    (hres : alFind role.res R = some re)
    (hown : alFind re "read:own" = Option.none)
    (hany : alFind re "read:any" = some l)
    (hl : ¬ l = []) :
    canAction u fuel g (.str X) "read" "own" R = .ok ⟨[X], R, l, true⟩
    ∧ canAction u fuel g (.str X) "read" "any" R = .ok ⟨[X], R, l, true⟩ := by
  obtain ⟨f, rfl⟩ : ∃ f, fuel = f + 1 := by
    cases fuel with
    | zero => omega
    | succ f => exact ⟨f, rfl⟩
  have hfill : isFilledStringArray [X] = true := by
    simp [isFilledStringArray, hXt]
  have hap1 : normalizeAP (some "read") (some "own") = .ok ("read", "own") := by
    decide
  have hap2 : normalizeAP (some "read") (some "any") = .ok ("read", "any") := by
    decide
  have h1o : normalizeQueryInfo ⟨.str X, some R, some "read", some "own"⟩
      = .ok ⟨[X], R, "read", "own"⟩ := by
    unfold normalizeQueryInfo
    simp [toStringArray, hX, hfill, hRt, hR, hap1]
  have h1a : normalizeQueryInfo ⟨.str X, some R, some "read", some "any"⟩
      = .ok ⟨[X], R, "read", "any"⟩ := by
    unfold normalizeQueryInfo
    simp [toStringArray, hX, hfill, hRt, hR, hap2]
  have huc : uniqConcat [X] [X] = [X] := by
    simp [uniqConcat, pushUniq]
  have hhier : getRoleHierarchyOf g X Option.none (f + 1) = .ok [X] := by
    unfold getRoleHierarchyOf
    rw [hrole]
    simp [hext]
  have h2 : getFlatRoles g (f + 1) (.list [X]) = .ok [X] := by
    unfold getFlatRoles
    simp only [toStringArray, if_neg (by simp : ¬ ([X] : List String) = [])]
    have : uniqConcat [] [X] = [X] := by simp [uniqConcat, pushUniq]
    rw [this]
    simp only [flatRolesLoop, hhier, huc]
  have hko : ("read" ++ ":" ++ "own" : String) = "read:own" := by decide
  have hka : ("read" ++ ":" ++ "any" : String) = "read:any" := by decide
  have hka2 : ("read" ++ ":any" : String) = "read:any" := by decide
  have h3o : collectAttrsLists g R "read" "own" [X] = [l] := by
    simp only [collectAttrsLists, hrole, hres, apLookup, hko, hka2, hown, hany,
      Option.getD_some]
  have h3a : collectAttrsLists g R "read" "any" [X] = [l] := by
    simp only [collectAttrsLists, hrole, hres, apLookup, hka, hany]
  have hgr : decide (¬ (unionAll u [l]) = []) = true := by
    simp [unionAll, hl]
  constructor
  · show mkPermission u (f + 1) g ⟨.str X, some R, some "read", some "own"⟩ = _
    rw [mkPermission_eval u (f + 1) g _ ⟨[X], R, "read", "own"⟩ [X] [l] h1o h2 h3o]
    simp [unionAll, hl]
  · show mkPermission u (f + 1) g ⟨.str X, some R, some "read", some "any"⟩ = _
    rw [mkPermission_eval u (f + 1) g _ ⟨[X], R, "read", "any"⟩ [X] [l] h1a h2 h3a]
    simp [unionAll, hl]

/-- C2 witness: the fallback at a concrete store. -/
theorem claim2_witness :
    canAction (fun a _ => a) 1
      [("X", ⟨Option.none, [("R", [("read:any", ["*"])])]⟩)]
      (.str "X") "read" "own" "R"
      = .ok ⟨["X"], "R", ["*"], true⟩
    ∧ canAction (fun a _ => a) 1
      [("X", ⟨Option.none, [("R", [("read:any", ["*"])])]⟩)]
      (.str "X") "read" "any" "R"
      = .ok ⟨["X"], "R", ["*"], true⟩ :=
  claim2_own_any_fallback (fun a _ => a) 1 _ "X" "R"
    ⟨Option.none, [("R", [("read:any", ["*"])])]⟩ [("read:any", ["*"])] ["*"]
    (by decide) (by decide) (by decide) (by decide) (by decide) (by decide)
    (by decide) (by decide) (by decide) (by decide) (by decide)

/-! ## Lemmas about the removal loops -/

theorem alFind_some_mem_keys {α : Type} (l : List (String × α))
    (k : String) (v : α) (h : alFind l k = some v) : k ∈ alKeys l := by
  induction l with
  | nil => simp [alFind] at h
  | cons p t ih =>
    obtain ⟨k', v'⟩ := p
    by_cases hk : k' = k
    · simp [alKeys, hk]
    · simp only [alFind, hk, if_false] at h
      simp [alKeys] at ih ⊢
      exact Or.inr (by simpa [alKeys] using ih h)

theorem alFind_alDel {α : Type} (l : List (String × α)) (k k' : String) :
    alFind (alDel l k) k' = if k' = k then Option.none else alFind l k' := by
  induction l with
  | nil => by_cases h : k' = k <;> simp [alDel, alFind, h]
  | cons p t ih =>
    obtain ⟨a, v⟩ := p
    by_cases hak : a = k <;> by_cases hk' : k' = k <;>
      by_cases hak' : a = k' <;>
      simp_all [alDel, alFind, List.filter_cons]

/-- subtractArray is idempotent in its second argument. -/
theorem subtractArray_idem (a b : List String) :
    subtractArray (subtractArray a b) b = subtractArray a b := by
  unfold subtractArray
  rw [List.filter_filter]
  simp

/-- The prune loop of removeRoles never fails on an unfrozen store and
rewrites exactly the extend lists of the visited subjects. -/
theorem pruneLoop_spec (removed : List String) :
    ∀ (names : List String) (g : Grants) (k : String),
      (pruneLoop false removed names g).1 = .ok ()
      ∧ alFind (pruneLoop false removed names g).2 k
        = (alFind g k).map (fun role =>
            if k ∈ names then
              ⟨role.ext.map (fun l => subtractArray l removed), role.res⟩
            else role) := by
  intro names
  induction names with
  | nil =>
    intro g k
    constructor
    · rfl
    · cases hg : alFind g k with
      | none => simp [pruneLoop, hg]
      | some role => simp [pruneLoop, hg]
  | cons n rest ih =>
    intro g k
    have hred : ∀ (A B : Except AcErr Unit × Grants),
        (if (false : Bool) = true then A else B) = B := by
      intro A B; simp
    by_cases hk : k = n
    · subst hk
      cases hg : alFind g k with
      | none =>
        simp only [pruneLoop, hg]
        refine ⟨(ih g k).1, ?_⟩
        rw [(ih g k).2, hg]
        rfl
      | some role =>
        cases hext : role.ext with
        | none =>
          simp only [pruneLoop, hg, hext]
          refine ⟨(ih g k).1, ?_⟩
          rw [(ih g k).2, hg]
          cases role
          simp only at hext
          subst hext
          by_cases hmem : k ∈ rest <;> simp [hmem]
        | some l =>
          simp only [pruneLoop, hg, hext, hred]
          have hfind2 :
              alFind (alSet g k ⟨some (subtractArray l removed), role.res⟩) k
              = some ⟨some (subtractArray l removed), role.res⟩ :=
            alFind_alSet_self _ _ _
          refine ⟨(ih _ k).1, ?_⟩
          rw [(ih _ k).2, hfind2]
          by_cases hmem : k ∈ rest
          · simp [hmem, hext, subtractArray_idem]
          · simp [hmem, hext]
    · cases hg : alFind g n with
      | none =>
        simp only [pruneLoop, hg]
        refine ⟨(ih g k).1, ?_⟩
        rw [(ih g k).2]
        simp [List.mem_cons, hk]
      | some role =>
        cases hext : role.ext with
        | none =>
          simp only [pruneLoop, hg, hext]
          refine ⟨(ih g k).1, ?_⟩
          rw [(ih g k).2]
          simp [List.mem_cons, hk]
        | some l =>
          simp only [pruneLoop, hg, hext, hred]
          refine ⟨(ih _ k).1, ?_⟩
          rw [(ih _ k).2]
          rw [alFind_alSet_ne _ _ _ _ (fun h => hk h.symm)]
          simp [List.mem_cons, hk]

/-- C7: removing a role prunes the dangling references: if role A's
inheritance list contains role B (and nothing else) and both exist,
removeRoles(['B']) succeeds, afterwards A's inheritance list is empty
and B's entry is gone, and the hierarchy of A is exactly [A]. -/
theorem claim7_removal_pruning (g : Grants) (lf : Bool) (A B : String)
    (roleA roleB : RoleEntry) (extA : List String) (fuel : Nat)
    (hfuel : 0 < fuel)
    (hAB : ¬ A = B)
    (hA : alFind g A = some roleA)
    (hext : roleA.ext = some extA)
    (hmem : B ∈ extA)
    (honly : ∀ x ∈ extA, x = B)
    (hB : alFind g B = some roleB)
    (hBt : ¬ strTrim B = "") :
    ∃ g', removeRolesF (.list [B]) ⟨g, lf, false⟩ = (.ok (), ⟨g', lf, false⟩)
      ∧ alFind g' A = some ⟨some [], roleA.res⟩
      ∧ alFind g' B = Option.none
      ∧ getRoleHierarchyOf g' A Option.none fuel = .ok [A] := by
  obtain ⟨f, rfl⟩ : ∃ f, fuel = f + 1 := by
    cases fuel with
    | zero => omega
    | succ f => exact ⟨f, rfl⟩
  have hlock : isLockedState ⟨g, lf, false⟩ = false := by
    simp [isLockedState]
  have hfill : (toStringArray (.list [B]) = [] ∨
      ¬ isFilledStringArray (toStringArray (.list [B])) = true) = False := by
    simp [toStringArray, isFilledStringArray, hBt]
  have hrm : removeLoop false [B] g = (.ok (), alDel g B) := by
    simp [removeLoop, hB]
  set g₂ := alDel g B with hg₂
  have hA₂ : alFind g₂ A = some roleA := by
    rw [hg₂, alFind_alDel]
    simp [hAB, hA]
  have hB₂ : alFind g₂ B = Option.none := by
    rw [hg₂, alFind_alDel]
    simp
  have hAmem : A ∈ alKeys g₂ := alFind_some_mem_keys _ _ _ hA₂
  obtain ⟨hp1, hp2⟩ := pruneLoop_spec [B] (alKeys g₂) g₂ A
  obtain ⟨-, hp3⟩ := pruneLoop_spec [B] (alKeys g₂) g₂ B
  set g' := (pruneLoop false [B] (alKeys g₂) g₂).2 with hg'
  have hsub : subtractArray extA [B] = [] := by
    unfold subtractArray
    rw [List.filter_eq_nil_iff]
    intro x hx
    simp [honly x hx]
  have hA' : alFind g' A = some ⟨some [], roleA.res⟩ := by
    rw [hg', hp2, hA₂]
    simp [hAmem, hext, hsub]
  have hB' : alFind g' B = Option.none := by
    rw [hg', hp3, hB₂]
    rfl
  refine ⟨g', ?_, hA', hB', ?_⟩
  · have hcond : ¬ (toStringArray (.list [B]) = [] ∨
        ¬ isFilledStringArray (toStringArray (.list [B])) = true) := by
      rw [hfill]; exact not_false
    have heq : pruneLoop false [B] (alKeys g₂) g₂ = (.ok (), g') := by
      rw [hg']
      have h1 := hp1
      cases hres : pruneLoop false [B] (alKeys g₂) g₂ with
      | mk r gg =>
        simp [hres] at h1
        simp [h1]
    simp only [removeRolesF, hlock, Bool.false_eq_true, if_false,
      if_neg hcond, show toStringArray (.list [B]) = [B] from rfl, hrm, heq]
    have hcond2 : ¬ (([B] : List String) = [] ∨
        ¬ isFilledStringArray [B] = true) := by
      simpa [toStringArray] using hcond
    rw [if_neg hcond2]
  · unfold getRoleHierarchyOf
    rw [hA']
    simp

/-- C7 witness: removal pruning at a concrete store. -/
theorem claim7_witness :
    ∃ g', removeRolesF (.list ["B"])
        ⟨[("A", ⟨some ["B"], []⟩),
          ("B", ⟨Option.none, [("v", [("read:any", ["*"])])]⟩)], false, false⟩
      = (.ok (), ⟨g', false, false⟩)
      ∧ alFind g' "A" = some ⟨some [], []⟩
      ∧ alFind g' "B" = Option.none
      ∧ getRoleHierarchyOf g' "A" Option.none 1 = .ok ["A"] :=
  claim7_removal_pruning _ false "A" "B" ⟨some ["B"], []⟩
    ⟨Option.none, [("v", [("read:any", ["*"])])]⟩ ["B"] 1
    (by decide) (by decide) (by decide) (by decide) (by decide)
    (by decide) (by decide) (by decide)

theorem alFind_none_not_mem {α : Type} (l : List (String × α))
    (k : String) (h : alFind l k = Option.none) : k ∉ alKeys l := by
  intro hmem
  induction l with
  | nil => simp [alKeys] at hmem
  | cons p t ih =>
    obtain ⟨a, v⟩ := p
    by_cases hak : a = k
    · simp [alFind, hak] at h
    · simp only [alFind, hak, if_false] at h
      simp only [alKeys, List.map_cons, List.mem_cons] at hmem
      rcases hmem with hmem | hmem
      · exact hak hmem.symm
      · exact ih h (by simpa [alKeys] using hmem)

theorem validNameE_of_B (n : String) (h : validNameB n = true) :
    validNameE n = .ok () := by
  unfold validNameB at h
  unfold validNameE
  simp only [Bool.and_eq_true, decide_eq_true_eq] at h
  rw [if_neg h.1, if_neg h.2]

/-- C9: lock() is idempotent: when lock() succeeds, the instance is
locked, the grants are untouched, a second lock() succeeds returning
the identical state, and every mutating operation behaves identically
after one lock() call and after two. -/
theorem claim9_lock_idempotent (st st' : ACState)
    (h : lockAC st = .ok st') :
    lockAC st' = .ok st'
    ∧ isLockedState st' = true
    ∧ st'.grants = st.grants
    ∧ ∀ st'', lockAC st' = .ok st'' →
        ∀ op : MutOp, runMutOp op st'' = runMutOp op st' := by
  unfold lockAC at h
  by_cases h0 : st.grants.length = 0
  · simp [h0] at h
  · simp only [h0, if_false] at h
    have hst' : st' = ⟨st.grants, true, true⟩ := by
      by_cases hl : isLockedState st = true
      · have hfr : st.frozen = true := by
          unfold isLockedState at hl
          exact (Bool.and_eq_true _ _ |>.mp hl).2

        simp only [hl, if_true] at h
        cases h
        rw [hfr]
      · simp only [hl, if_false] at h
        simp only [Bool.not_eq_true] at hl
        rw [if_neg (by simp [hl])] at h
        cases h
        rfl
    subst hst'
    have h2 : lockAC ⟨st.grants, true, true⟩ = .ok ⟨st.grants, true, true⟩ := by
      unfold lockAC
      rw [if_neg h0]
      simp [isLockedState]
    refine ⟨h2, by simp [isLockedState], rfl, ?_⟩
    intro st'' hst'' op
    rw [h2] at hst''
    cases hst''
    rfl

/-- C9 witness: idempotent lock at a concrete non-empty store. -/
theorem claim9_witness :
    lockAC ⟨[("a", ⟨Option.none, []⟩)], true, true⟩
        = .ok ⟨[("a", ⟨Option.none, []⟩)], true, true⟩
      ∧ isLockedState ⟨[("a", ⟨Option.none, []⟩)], true, true⟩ = true
      ∧ (⟨[("a", ⟨Option.none, []⟩)], true, true⟩ : ACState).grants
          = (⟨[("a", ⟨Option.none, []⟩)], false, false⟩ : ACState).grants
      ∧ ∀ st'', lockAC ⟨[("a", ⟨Option.none, []⟩)], true, true⟩ = .ok st'' →
          ∀ op : MutOp, runMutOp op st''
            = runMutOp op ⟨[("a", ⟨Option.none, []⟩)], true, true⟩ :=
  claim9_lock_idempotent ⟨[("a", ⟨Option.none, []⟩)], false, false⟩ _ (by decide)

/-- C10: query resolution never mutates the store: building a
Permission from the instance state leaves the state exactly as it was,
while constructing an Access builder via grant(subject) does create
the missing subject entry. -/
theorem claim10_query_frame (u : Attrs → Attrs → Attrs) (q : QueryInfo)
    (st : ACState) :
    (permissionF u q st).2 = st
    ∧ ∀ name : String,
        isLockedState st = false →
        st.frozen = false →
        validNameB name = true →
        splitTrimmed name = [name] →
        alHas st.grants name = false →
        grantF (.str name) st
          = (.ok ⟨.str name, .none, .none, Option.none, Option.none, false⟩,
             ⟨st.grants ++ [(name, ⟨Option.none, []⟩)], st.lockedFlag, false⟩) := by
  refine ⟨rfl, ?_⟩
  intro name hlock hfr hvn hsplit hhas
  have hfind : alFind st.grants name = Option.none := by
    unfold alHas at hhas
    cases hf : alFind st.grants name with
    | none => rfl
    | some v => rw [hf] at hhas; simp at hhas
  have hnotmem : name ∉ alKeys st.grants := alFind_none_not_mem _ _ hfind
  have hpre : preCreateRoles false (.str name) st.grants
      = (.ok (), st.grants ++ [(name, ⟨Option.none, []⟩)]) := by
    unfold preCreateRoles
    simp only [hsplit]
    rw [if_neg (by simp)]
    unfold preCreateLoop
    rw [validNameE_of_B name hvn]
    simp only [alHas, hfind, Option.isSome_none, Bool.false_eq_true, if_false]
    rw [alSet_absent _ _ _ hnotmem]
    rfl
  unfold grantF
  rw [hlock]
  simp only [Bool.false_eq_true, if_false]
  rw [hfr]
  simp only [hpre]

/-- C10 witness: the frame property and the builder side effect at a
concrete state. -/
theorem claim10_witness :
    (permissionF (fun a _ => a)
        ⟨.str "u", some "r", some "read", some "any"⟩
        ⟨[], false, false⟩).2 = ⟨[], false, false⟩
    ∧ grantF (.str "u") ⟨[], false, false⟩
        = (.ok ⟨.str "u", .none, .none, Option.none, Option.none, false⟩,
           ⟨[("u", ⟨Option.none, []⟩)], false, false⟩) := by
  obtain ⟨h1, h2⟩ := claim10_query_frame (fun a _ => a)
    ⟨.str "u", some "r", some "read", some "any"⟩ ⟨[], false, false⟩
  exact ⟨h1, h2 "u" (by decide) (by decide) (by decide) (by decide) (by decide)⟩

/-! ## Lemmas about mutation on a frozen store -/

theorem commitResLoop_frozen (s ap : String) (attrs : Attrs)
    (r : String) (rs : List String) (g : Grants) :
    ∃ e, commitResLoop true s ap attrs (r :: rs) g = (.error e, g) := by
  cases hv : validNameE r with
  | error e => exact ⟨e, by simp [commitResLoop, hv]⟩
  | ok _ =>
    cases hf : alFind g s with
    | none =>
      refine ⟨.internalErr, ?_⟩
      simp [commitResLoop, hv, ensureResource, hf]
    | some role =>
      cases hr : alFind role.res r with
      | none =>
        refine ⟨.frozenWrite, ?_⟩
        simp [commitResLoop, hv, ensureResource, hf, alHas, hr]
      | some re =>
        refine ⟨.frozenWrite, ?_⟩
        simp [commitResLoop, hv, ensureResource, hf, alHas, hr, writePerm]

theorem commitSubjLoop_frozen (ap : String) (attrs : Attrs)
    (r : String) (rs : List String) (s : String) (ss : List String)
    (g : Grants) :
    ∃ e, commitSubjLoop true ap attrs (r :: rs) (s :: ss) g
      = (.error e, g) := by
  cases hv : validNameE s with
  | error e => exact ⟨e, by simp [commitSubjLoop, hv]⟩
  | ok _ =>
    cases hf : alFind g s with
    | none =>
      refine ⟨.frozenWrite, ?_⟩
      simp [commitSubjLoop, hv, ensureSubject, alHas, hf]
    | some role =>
      obtain ⟨e, he⟩ := commitResLoop_frozen s ap attrs r rs g
      refine ⟨e, ?_⟩
      simp [commitSubjLoop, hv, ensureSubject, alHas, hf, he]

theorem normalizeAccessInfo_ok_nonempty (acc : AccessInfo) (all : Bool)
    (na : NAccess) (h : normalizeAccessInfo acc all = .ok na) :
    ¬ na.subject = [] ∧ ¬ na.resource = [] := by
  unfold normalizeAccessInfo at h
  by_cases hs : toStringArray acc.subject = [] ∨
      ¬ isFilledStringArray (toStringArray acc.subject) = true
  · rw [if_pos hs] at h; cases h
  · rw [if_neg hs] at h
    by_cases hr : toStringArray acc.resource = [] ∨
        ¬ isFilledStringArray (toStringArray acc.resource) = true
    · rw [if_pos hr] at h; cases h
    · rw [if_neg hr] at h
      push_neg at hs hr
      cases hall : all with
      | true =>
        rw [hall] at h
        simp only [if_true] at h
        cases hap : normalizeAP acc.action acc.possession with
        | error e => rw [hap] at h; cases h
        | ok p =>
          rw [hap] at h
          cases p
          cases h
          exact ⟨hs.1, hr.1⟩
      | false =>
        rw [hall] at h
        simp only [Bool.false_eq_true, if_false] at h
        cases h
        exact ⟨hs.1, hr.1⟩

/-- Committing anything into a frozen grants object fails (strict-mode
TypeError) without touching the store. -/
theorem commitToGrants_frozen (a : AccessInfo) (all : Bool) (g : Grants) :
    ∃ e, commitToGrants true a all g = (.error e, g) := by
  cases hn : normalizeAccessInfo a all with
  | error e => exact ⟨e, by simp [commitToGrants, hn]⟩
  | ok na =>
    obtain ⟨hs, hr⟩ := normalizeAccessInfo_ok_nonempty a all na hn
    cases hss : na.subject with
    | nil => exact absurd hss hs
    | cons s ss =>
      cases hrr : na.resource with
      | nil => exact absurd hrr hr
      | cons r rs =>
        obtain ⟨e, he⟩ := commitSubjLoop_frozen
          (jsStr na.action ++ ":" ++ jsStr na.possession) na.attributes
          r rs s ss g
        refine ⟨e, ?_⟩
        simp only [commitToGrants, hn]
        rw [← hss, ← hrr] at he
        exact he

/-- On a locked instance every mutating operation fails and returns
the state untouched. -/
theorem runMutOp_locked (op : MutOp) (st : ACState)
    (h : isLockedState st = true) :
    ∃ e, runMutOp op st = (.error e, st) := by
  have hfr : st.frozen = true := by
    unfold isLockedState at h
    exact (Bool.and_eq_true _ _ |>.mp h).2
  cases op with
  | setGrantsOp inp => exact ⟨.lockErr, by simp [runMutOp, setGrantsF, h]⟩
  | resetOp => exact ⟨.lockErr, by simp [runMutOp, resetF, h]⟩
  | grantOp s => exact ⟨.lockErr, by simp [runMutOp, grantF, h]⟩
  | denyOp s => exact ⟨.lockErr, by simp [runMutOp, denyF, h]⟩
  | extendRoleOp s e r => exact ⟨.lockErr, by simp [runMutOp, extendRoleF, h]⟩
  | removeRolesOp s => exact ⟨.lockErr, by simp [runMutOp, removeRolesF, h]⟩
  | removeResourcesOp r s =>
    exact ⟨.lockErr, by simp [runMutOp, removeResourcesF, h]⟩
  | commitOp d a p r at_ =>
    obtain ⟨g0, lf0, fr0⟩ := st
    replace hfr : fr0 = true := hfr
    subst hfr
    obtain ⟨e, he⟩ := commitToGrants_frozen
      ⟨d.subject,
       (match r with
        | .none => d.resource
        | .str "" => d.resource
        | v => v),
       (if d.denied then .list []
        else
          match at_ with
          | .none => .list ["*"]
          | .str "" => .list ["*"]
          | v => .list (toStringArray v)),
       some a, p, d.denied⟩ false g0
    refine ⟨e, ?_⟩
    simp only [runMutOp, accessCommitF, prepareAndCommit]
    rw [he]

/-- C3 (amended): once the store is locked, the grants never change
again: every mutating operation fails leaving the state untouched, the
facade operations fail with the locked-state error (commits through a
previously obtained Access builder fail with the frozen-object write
error or a validation error instead), and any sequence of mutating
operations leaves the state — grants and lock — exactly as it was
(there is no unlock). -/
theorem claim3_locked_store_immutable (st : ACState)
    (h : isLockedState st = true) :
    (∀ op : MutOp, ∃ e, runMutOp op st = (.error e, st))
    ∧ (∀ op : MutOp, isFacadeOp op = true →
        runMutOp op st = (.error .lockErr, st))
    ∧ (∀ ops : List MutOp, execOps ops st = st) := by
  refine ⟨fun op => runMutOp_locked op st h, ?_, ?_⟩
  · intro op hop
    cases op with
    | setGrantsOp inp => simp [runMutOp, setGrantsF, h]
    | resetOp => simp [runMutOp, resetF, h]
    | grantOp s => simp [runMutOp, grantF, h]
    | denyOp s => simp [runMutOp, denyF, h]
    | extendRoleOp s e r => simp [runMutOp, extendRoleF, h]
    | removeRolesOp s => simp [runMutOp, removeRolesF, h]
    | removeResourcesOp r s => simp [runMutOp, removeResourcesF, h]
    | commitOp d a p r at_ => simp [isFacadeOp] at hop
  · intro ops
    induction ops with
    | nil => rfl
    | cons op rest ih =>
      obtain ⟨e, he⟩ := runMutOp_locked op st h
      simp only [execOps, List.foldl_cons, he]
      exact ih

/-- C3 counterexample: on a locked instance, a commit through a
previously obtained Access builder fails with the frozen-object write
error, not the locked-state error the claim requires for every
mutating operation. -/
theorem claim3_counterexample :
    lockAC ⟨[("admin", ⟨Option.none, [("profile", [("create:any", ["*"])])]⟩)],
        false, false⟩
      = .ok ⟨[("admin", ⟨Option.none, [("profile", [("create:any", ["*"])])]⟩)],
        true, true⟩
    ∧ runMutOp
        (.commitOp ⟨.str "admin", .none, .none, Option.none, Option.none, false⟩
          "create" (some "any") (.str "profile") .none)
        ⟨[("admin", ⟨Option.none, [("profile", [("create:any", ["*"])])]⟩)],
          true, true⟩
      = (.error .frozenWrite,
         ⟨[("admin", ⟨Option.none, [("profile", [("create:any", ["*"])])]⟩)],
          true, true⟩)
    ∧ ¬ (AcErr.frozenWrite = AcErr.lockErr) := by
  refine ⟨by decide, by decide, by decide⟩

/-- C3 witness: the amended claim at a concrete locked state. -/
theorem claim3_witness :
    (∀ op : MutOp, ∃ e,
      runMutOp op ⟨[("a", ⟨Option.none, []⟩)], true, true⟩
        = (.error e, ⟨[("a", ⟨Option.none, []⟩)], true, true⟩))
    ∧ (∀ op : MutOp, isFacadeOp op = true →
        runMutOp op ⟨[("a", ⟨Option.none, []⟩)], true, true⟩
          = (.error .lockErr, ⟨[("a", ⟨Option.none, []⟩)], true, true⟩))
    ∧ (∀ ops : List MutOp,
        execOps ops ⟨[("a", ⟨Option.none, []⟩)], true, true⟩
          = ⟨[("a", ⟨Option.none, []⟩)], true, true⟩) :=
  claim3_locked_store_immutable ⟨[("a", ⟨Option.none, []⟩)], true, true⟩
    (by decide)

/-! ## Lemmas about failure atomicity on an unfrozen store -/

theorem removeResLoop_no_err (rl : List String)
    (slOpt : Option (List String)) :
    ∀ (names : List String) (g : Grants),
      (removeResLoop false rl slOpt names g).1 = .ok () := by
  intro names
  induction names with
  | nil => intro g; rfl
  | cons n rest ih =>
    intro g
    cases hf : alFind g n with
    | none => simp only [removeResLoop, hf]; exact ih g
    | some role =>
      simp only [removeResLoop, hf]
      by_cases hmem : (slOpt.getD [n]).elem n = true
      · rw [if_pos hmem]
        by_cases hsame :
            role.res.filter (fun p => p.1 ∉ rl) = role.res
            ∧ (if "_extend_" ∈ rl then Option.none else role.ext) = role.ext
        · rw [if_pos hsame]; exact ih g
        · rw [if_neg hsame]
          simp only [Bool.false_eq_true, if_false]
          exact ih _
      · rw [if_neg hmem]; exact ih g

theorem extendLoop_single_err (fuel : Nat) (ext : List String)
    (replace : Bool) (n : String) (g g' : Grants) (e : AcErr)
    (h : extendLoop false fuel ext replace [n] g = (.error e, g')) :
    g' = g := by
  unfold extendLoop at h
  cases hf : alFind g n with
  | none =>
    rw [hf] at h
    simp only [Prod.mk.injEq] at h
    exact h.2.symm
  | some role =>
    simp only [hf] at h
    by_cases hmem : n ∈ ext
    · rw [if_pos hmem] at h
      simp only [Prod.mk.injEq] at h
      exact h.2.symm
    · rw [if_neg hmem] at h
      cases hc : getCrossExtendingRole g n fuel ext with
      | error ec =>
        simp only [hc] at h
        simp only [Prod.mk.injEq] at h
        exact h.2.symm
      | ok cr =>
        simp only [hc] at h
        cases cr with
        | some c =>
          simp only [Prod.mk.injEq] at h
          exact h.2.symm
        | none =>
          cases hv : validNameE n with
          | error ev =>
            simp only [hv] at h
            simp only [Prod.mk.injEq] at h
            exact h.2.symm
          | ok _ =>
            simp only [hv] at h
            simp only [Bool.false_eq_true, if_false] at h
            unfold extendLoop at h
            simp at h

theorem extendRole_single_err (frozen : Bool) (fuel : Nat)
    (subjects ext : StrList) (replace : Bool) (n : String)
    (g g' : Grants) (e : AcErr)
    (hfr : frozen = false)
    (hs : toStringArray subjects = [n])
    (h : extendRole frozen fuel subjects ext replace g = (.error e, g')) :
    g' = g := by
  subst hfr
  unfold extendRole at h
  rw [hs] at h
  rw [if_neg (by simp)] at h
  by_cases hemp : isEmptyArrayV ext = true
  · rw [if_pos hemp] at h; cases h
  · rw [if_neg hemp] at h
    by_cases hext : toStringArray ext = []
    · rw [if_pos hext] at h
      simp only [Prod.mk.injEq] at h
      exact h.2.symm
    · rw [if_neg hext] at h
      by_cases hnon : ¬ getNonExistentRoles g (toStringArray ext) = []
      · rw [if_pos hnon] at h
        simp only [Prod.mk.injEq] at h
        exact h.2.symm
      · rw [if_neg hnon] at h
        exact extendLoop_single_err _ _ _ _ _ _ _ h

theorem preCreateLoop_single_err (n : String) (g g' : Grants) (e : AcErr)
    (h : preCreateLoop false [n] g = (.error e, g')) : g' = g := by
  unfold preCreateLoop at h
  cases hv : validNameE n with
  | error ev =>
    simp only [hv] at h
    simp only [Prod.mk.injEq] at h
    exact h.2.symm
  | ok _ =>
    simp only [hv] at h
    by_cases hhas : alHas g n = true
    · rw [if_pos hhas] at h
      unfold preCreateLoop at h
      cases h
    · rw [if_neg hhas] at h
      simp only [Bool.false_eq_true, if_false] at h
      unfold preCreateLoop at h
      cases h

theorem preCreateRoles_single_err (subjects : StrList) (n : String)
    (g g' : Grants) (e : AcErr)
    (hs : toStringArray subjects = [n])
    (h : preCreateRoles false subjects g = (.error e, g')) : g' = g := by
  cases subjects with
  | none => simp [toStringArray] at hs
  | str s =>
    have hsl : splitTrimmed s = [n] := hs
    replace h :
        (if splitTrimmed s = [] then
          ((.error .invalidSubjects : Except AcErr Unit), g)
        else preCreateLoop false (splitTrimmed s) g)
        = (.error e, g') := h
    rw [hsl] at h
    rw [if_neg (by simp)] at h
    exact preCreateLoop_single_err n g g' e h
  | list l =>
    have hsl : l = [n] := hs
    subst hsl
    replace h :
        (if ([n] : List String) = [] then
          ((.error .invalidSubjects : Except AcErr Unit), g)
        else preCreateLoop false [n] g)
        = (.error e, g') := h
    rw [if_neg (by simp)] at h
    exact preCreateLoop_single_err n g g' e h

/-- C6 (amended): failures detected before any mutation leave the
store untouched — setGrants, removeResources and lock do so for every
failure, and extendRole, removeRoles and the grant/deny builder
pre-creation do so when applied to a single subject.  (As stated the
claim is false: those operations iterate over several subjects
validating each one during the loop, so a later subject's error leaves
the earlier subjects' mutations in place.) -/
theorem claim6_failure_atomicity (st : ACState) (hfr : st.frozen = false) :
    (∀ inp e st', setGrantsF inp st = (.error e, st') → st' = st)
    ∧ (∀ res subj e st',
        removeResourcesF res subj st = (.error e, st') → st' = st)
    ∧ (∀ subjects ext repl n e st', toStringArray subjects = [n] →
        extendRoleF subjects ext repl st = (.error e, st') → st' = st)
    ∧ (∀ subjects n e st', toStringArray subjects = [n] →
        removeRolesF subjects st = (.error e, st') → st' = st)
    ∧ (∀ e st', lockF st = (.error e, st') → st' = st)
    ∧ (∀ subjects n e st', toStringArray subjects = [n] →
        grantF subjects st = (.error e, st') → st' = st) := by
  obtain ⟨g0, lf0, fr0⟩ := st
  replace hfr : fr0 = false := hfr
  subst hfr
  have hlock : isLockedState ⟨g0, lf0, false⟩ = false := by
    simp [isLockedState]
  refine ⟨?_, ?_, ?_, ?_, ?_, ?_⟩
  · intro inp e st' h
    unfold setGrantsF at h
    rw [hlock] at h
    simp only [Bool.false_eq_true, if_false] at h
    cases hi : getInspectedGrants inp with
    | error e' =>
      rw [hi] at h
      simp only [Prod.mk.injEq] at h
      exact h.2.symm
    | ok gg => rw [hi] at h; cases h
  · intro res subj e st' h
    unfold removeResourcesF at h
    rw [hlock] at h
    simp only [Bool.false_eq_true, if_false] at h
    by_cases h1 : toStringArray res = [] ∨
        ¬ isFilledStringArray (toStringArray res) = true
    · rw [if_pos h1] at h
      simp only [Prod.mk.injEq] at h
      exact h.2.symm
    · rw [if_neg h1] at h
      cases subj with
      | none =>
        replace h :
            ((removeResLoop false (toStringArray res) Option.none
                (alKeys g0) g0).1,
             (⟨(removeResLoop false (toStringArray res) Option.none
                (alKeys g0) g0).2, lf0, false⟩ : ACState))
            = ((.error e : Except AcErr Unit), st') := h
        have hok := removeResLoop_no_err (toStringArray res) Option.none
          (alKeys g0) g0
        rw [hok] at h
        simp at h
      | some sv =>
        replace h :
            (if toStringArray sv = [] ∨
                ¬ isFilledStringArray (toStringArray sv) = true then
              ((.error .invalidSubjects : Except AcErr Unit),
               (⟨g0, lf0, false⟩ : ACState))
            else
              ((removeResLoop false (toStringArray res)
                  (some (toStringArray sv)) (alKeys g0) g0).1,
               (⟨(removeResLoop false (toStringArray res)
                  (some (toStringArray sv)) (alKeys g0) g0).2, lf0, false⟩ :
                  ACState)))
            = ((.error e : Except AcErr Unit), st') := h
        by_cases h2 : toStringArray sv = [] ∨
            ¬ isFilledStringArray (toStringArray sv) = true
        · rw [if_pos h2] at h
          simp only [Prod.mk.injEq] at h
          exact h.2.symm
        · rw [if_neg h2] at h
          have hok := removeResLoop_no_err (toStringArray res)
            (some (toStringArray sv)) (alKeys g0) g0
          rw [hok] at h
          simp at h
  · intro subjects ext repl n e st' hs h
    unfold extendRoleF at h
    rw [hlock] at h
    simp only [Bool.false_eq_true, if_false] at h
    cases hx : extendRole false (g0.length + 1) subjects ext repl g0 with
    | mk r gg =>
      rw [hx] at h
      cases r with
      | error e' =>
        have hgg : gg = g0 := extendRole_single_err _ _ _ _ _ _ _ _ _ rfl hs hx
        subst hgg
        simp only [Prod.mk.injEq] at h
        exact h.2.symm
      | ok _ => cases h
  · intro subjects n e st' hs h
    unfold removeRolesF at h
    rw [hlock] at h
    simp only [Bool.false_eq_true, if_false] at h
    rw [hs] at h
    by_cases h1 : ([n] : List String) = [] ∨
        ¬ isFilledStringArray [n] = true
    · rw [if_pos h1] at h
      simp only [Prod.mk.injEq] at h
      exact h.2.symm
    · rw [if_neg h1] at h
      cases hf : alFind g0 n with
      | none =>
        have hrm : removeLoop false [n] g0
            = (.error (.removeNonExisting n), g0) := by
          simp only [removeLoop, hf]
        rw [hrm] at h
        simp only [Prod.mk.injEq] at h
        exact h.2.symm
      | some role =>
        have hrm : removeLoop false [n] g0 = (.ok (), alDel g0 n) := by
          simp [removeLoop, hf]
        rw [hrm] at h
        replace h :
            ((pruneLoop false [n] (alKeys (alDel g0 n)) (alDel g0 n)).1,
             (⟨(pruneLoop false [n] (alKeys (alDel g0 n)) (alDel g0 n)).2,
               lf0, false⟩ : ACState))
            = ((.error e : Except AcErr Unit), st') := h
        obtain ⟨hp1, -⟩ := pruneLoop_spec [n] (alKeys (alDel g0 n))
          (alDel g0 n) ""
        rw [hp1] at h
        simp at h
  · intro e st' h
    unfold lockF lockAC at h
    by_cases h0 : g0.length = 0
    · rw [if_pos h0] at h
      simp only [Prod.mk.injEq] at h
      exact h.2.symm
    · rw [if_neg h0] at h
      split at h <;> cases h <;> rfl
  · intro subjects n e st' hs h
    unfold grantF at h
    rw [hlock] at h
    simp only [Bool.false_eq_true, if_false] at h
    cases subjects with
    | none => simp [toStringArray] at hs
    | str s =>
      replace h :
          (match preCreateRoles false (.str s) g0 with
            | (.error e, g') =>
              ((.error e : Except AcErr AccessInfo),
               (⟨g', lf0, false⟩ : ACState))
            | (.ok _, g') =>
              (.ok (⟨.str s, .none, .none, Option.none, Option.none, false⟩ :
                AccessInfo),
               (⟨g', lf0, false⟩ : ACState)))
          = (.error e, st') := h
      cases hp : preCreateRoles false (.str s) g0 with
      | mk r gg =>
        rw [hp] at h
        cases r with
        | error er =>
          have hgg : gg = g0 :=
            preCreateRoles_single_err (.str s) n g0 gg er hs hp
          subst hgg
          simp only [Prod.mk.injEq] at h
          exact h.2.symm
        | ok d => simp at h
    | list l =>
      replace h :
          (match preCreateRoles false (.list l) g0 with
            | (.error e, g') =>
              ((.error e : Except AcErr AccessInfo),
               (⟨g', lf0, false⟩ : ACState))
            | (.ok _, g') =>
              (.ok (⟨.list l, .none, .none, Option.none, Option.none, false⟩ :
                AccessInfo),
               (⟨g', lf0, false⟩ : ACState)))
          = (.error e, st') := h
      cases hp : preCreateRoles false (.list l) g0 with
      | mk r gg =>
        rw [hp] at h
        cases r with
        | error er =>
          have hgg : gg = g0 :=
            preCreateRoles_single_err (.list l) n g0 gg er hs hp
          subst hgg
          simp only [Prod.mk.injEq] at h
          exact h.2.symm
        | ok d => simp at h

/-- C6 counterexample: removeRoles applied to ['a', 'zz'] on a store
holding only 'a' throws on 'zz' but has already deleted 'a' — the
failed call does not leave the store in its pre-call state. -/
theorem claim6_counterexample :
    removeRolesF (.list ["a", "zz"]) ⟨[("a", ⟨Option.none, []⟩)], false, false⟩
      = (.error (.removeNonExisting "zz"), ⟨[], false, false⟩)
    ∧ ¬ (([] : Grants) = [("a", ⟨Option.none, []⟩)]) := by
  refine ⟨by decide, by decide⟩

/-- C6 witness: the amended atomicity at a concrete store. -/
theorem claim6_witness :
    (removeRolesF (.list ["zz"]) ⟨[("a", ⟨Option.none, []⟩)], false, false⟩).2
      = ⟨[("a", ⟨Option.none, []⟩)], false, false⟩ :=
  (claim6_failure_atomicity ⟨[("a", ⟨Option.none, []⟩)], false, false⟩
      rfl).2.2.2.1
    (.list ["zz"]) "zz" (.removeNonExisting "zz") _ (by decide) (by decide)

/-! ## Hierarchy membership lemmas -/

theorem hierExts_sub (g : Grants) (name : String) (root : Option String)
    (hier : String → Except AcErr (List String)) :
    ∀ (lst arr : List String) (l : List String),
      hierExts g name root hier lst arr = .ok l →
      ∀ x ∈ arr, x ∈ l := by
  intro lst
  induction lst with
  | nil =>
    intro arr l h x hx
    unfold hierExts at h
    cases h
    exact hx
  | cons ex rest ih =>
    intro arr l h x hx
    unfold hierExts at h
    cases hf : alFind g ex with
    | none => simp only [hf] at h; cases h
    | some w =>
      simp only [hf] at h
      by_cases he : ex = name
      · rw [if_pos he] at h; cases h
      · rw [if_neg he] at h
        by_cases hr : root = some ex
        · rw [if_pos hr] at h; cases h
        · rw [if_neg hr] at h
          cases hh : hier ex with
          | error e => simp only [hh] at h; cases h
          | ok le =>
            simp only [hh] at h
            exact ih _ _ h x (uniqConcat_subset_left _ _ _ hx)

theorem hier_mem (g : Grants) (name : String) (root : Option String)
    (fuel : Nat) (l : List String)
    (h : getRoleHierarchyOf g name root fuel = .ok l) : name ∈ l := by
  cases fuel with
  | zero => cases h
  | succ f =>
    unfold getRoleHierarchyOf at h
    cases hf : alFind g name with
    | none => simp only [hf] at h; cases h
    | some role =>
      simp only [hf] at h
      by_cases hexts : role.ext.getD [] = []
      · rw [if_pos hexts] at h
        cases h
        simp
      · rw [if_neg hexts] at h
        exact hierExts_sub g name root _ _ _ _ h name (by simp)

theorem hierExts_mem_exts (g : Grants) (name : String)
    (root : Option String) (hier : String → Except AcErr (List String))
    (hh : ∀ ex le, hier ex = .ok le → ex ∈ le) :
    ∀ (lst arr : List String) (l : List String),
      hierExts g name root hier lst arr = .ok l →
      ∀ ex ∈ lst, ex ∈ l := by
  intro lst
  induction lst with
  | nil => intro arr l h ex hex; cases hex
  | cons e0 rest ih =>
    intro arr l h ex hex
    unfold hierExts at h
    cases hf : alFind g e0 with
    | none => simp only [hf] at h; cases h
    | some w =>
      simp only [hf] at h
      by_cases he : e0 = name
      · rw [if_pos he] at h; cases h
      · rw [if_neg he] at h
        by_cases hr : root = some e0
        · rw [if_pos hr] at h; cases h
        · rw [if_neg hr] at h
          cases hhe : hier e0 with
          | error er => simp only [hhe] at h; cases h
          | ok le =>
            simp only [hhe] at h
            rcases List.mem_cons.mp hex with hex | hex
            · subst hex
              exact hierExts_sub g name root hier _ _ _ h ex
                (uniqConcat_subset_right _ _ _ (hh ex le hhe))
            · exact ih _ _ h ex hex

theorem hier_mem_ext (g : Grants) (name : String) (root : Option String)
    (fuel : Nat) (role : RoleEntry) (l : List String)
    (h : getRoleHierarchyOf g name root fuel = .ok l)
    (hrole : alFind g name = some role) :
    ∀ ex ∈ role.ext.getD [], ex ∈ l := by
  cases fuel with
  | zero => cases h
  | succ f =>
    unfold getRoleHierarchyOf at h
    simp only [hrole] at h
    by_cases hexts : role.ext.getD [] = []
    · intro ex hex
      rw [hexts] at hex
      cases hex
    · rw [if_neg hexts] at h
      exact hierExts_mem_exts g name root _
        (fun ex le hle => hier_mem g ex _ f le hle) _ _ _ h

/-- C4: after a successful extendRole('a',['b']), the reverse call
extendRole('b',['a']) fails with the cross-inheritance error naming
the conflicting role 'a', and the store is exactly the same after the
failed call as before it.  (The hypothesis that the hierarchy of 'a'
resolves expresses that the store's inheritance references are intact,
which every store reachable through the public operations satisfies.) -/
theorem claim4_cross_inheritance (g₀ g₁ : Grants) (fuel : Nat)
    (l : List String)
    (h1 : extendRole false fuel (.str "a") (.list ["b"]) false g₀
      = (.ok (), g₁))
    (h2 : getRoleHierarchyOf g₁ "a" Option.none fuel = .ok l) :
    extendRole false fuel (.str "b") (.list ["a"]) false g₁
      = (.error (.crossInheritance "a" "b"), g₁) := by
  unfold extendRole at h1
  rw [show toStringArray (.str "a") = ["a"] from by decide] at h1
  rw [if_neg (by decide)] at h1
  rw [show isEmptyArrayV (.list ["b"]) = false from rfl] at h1
  simp only [Bool.false_eq_true, if_false] at h1
  rw [show toStringArray (.list ["b"]) = ["b"] from rfl] at h1
  rw [if_neg (by decide)] at h1
  by_cases hnon : ¬ getNonExistentRoles g₀ ["b"] = []
  · rw [if_pos hnon] at h1; cases h1
  · rw [if_neg hnon] at h1
    push_neg at hnon
    have hbex : alHas g₀ "b" = true := by
      by_contra hb
      unfold getNonExistentRoles at hnon
      rw [List.filter_eq_nil_iff] at hnon
      have := hnon "b" (by simp)
      simp only [decide_eq_true_eq] at this
      exact this (by simpa using hb)
    unfold extendLoop at h1
    cases hfa : alFind g₀ "a" with
    | none => simp only [hfa] at h1; cases h1
    | some role₀ =>
      simp only [hfa] at h1
      rw [if_neg (by decide : ¬ ("a" ∈ (["b"] : List String)))] at h1
      cases hc : getCrossExtendingRole g₀ "a" fuel ["b"] with
      | error ec => simp only [hc] at h1; cases h1
      | ok cr =>
        simp only [hc] at h1
        cases cr with
        | some c => simp at h1
        | none =>
          simp only [show validNameE "a" = .ok () from by decide] at h1
          simp only [Bool.false_eq_true, if_false] at h1
          unfold extendLoop at h1
          simp only [Prod.mk.injEq] at h1
          obtain ⟨-, hg₁⟩ := h1
          have hfa₁ : alFind g₁ "a"
              = some ⟨some (uniqConcat (role₀.ext.getD []) ["b"]),
                  role₀.res⟩ := by
            rw [← hg₁]
            exact alFind_alSet_self _ _ _
          have hb₁ : alFind g₁ "b" = alFind g₀ "b" := by
            rw [← hg₁]
            exact alFind_alSet_ne _ _ _ _ (by decide)
          have hbl : "b" ∈ l :=
            hier_mem_ext g₁ "a" Option.none fuel _ l h2 hfa₁ "b"
              (by
                simp only [Option.getD_some]
                exact uniqConcat_subset_right _ _ _ (by simp))
          unfold extendRole
          rw [show toStringArray (.str "b") = ["b"] from by decide]
          rw [if_neg (by decide)]
          rw [show isEmptyArrayV (.list ["a"]) = false from rfl]
          simp only [Bool.false_eq_true, if_false]
          rw [show toStringArray (.list ["a"]) = ["a"] from rfl]
          rw [if_neg (by decide)]
          have hnon₁ : getNonExistentRoles g₁ ["a"] = [] := by
            simp [getNonExistentRoles, alHas, hfa₁]
          rw [if_neg (by rw [hnon₁]; simp)]
          unfold extendLoop
          cases hfb : alFind g₁ "b" with
          | none =>
            rw [hb₁] at hfb
            unfold alHas at hbex
            rw [hfb] at hbex
            simp at hbex
          | some roleB =>
            simp only [hfb]
            rw [if_neg (by decide : ¬ ("b" ∈ (["a"] : List String)))]
            have hcross : getCrossExtendingRole g₁ "b" fuel ["a"]
                = .ok (some "a") := by
              unfold getCrossExtendingRole
              rw [if_neg (by decide : ¬ ("b" = "a"))]
              simp only [h2]
              rw [if_pos hbl]
            simp only [hcross]

/-- C4 witness: the cycle rejection at a concrete store. -/
theorem claim4_witness :
    extendRole false 3 (.str "b") (.list ["a"]) false
      [("a", ⟨some ["b"], []⟩), ("b", ⟨Option.none, []⟩)]
      = (.error (.crossInheritance "a" "b"),
         [("a", ⟨some ["b"], []⟩), ("b", ⟨Option.none, []⟩)]) :=
  claim4_cross_inheritance
    [("a", ⟨Option.none, []⟩), ("b", ⟨Option.none, []⟩)]
    [("a", ⟨some ["b"], []⟩), ("b", ⟨Option.none, []⟩)]
    3 ["a", "b"] (by decide) (by decide)

/-! ## Key-shape lemmas for the commit path -/

theorem strAppend_assoc (a b c : String) : a ++ b ++ c = a ++ (b ++ c) := by
  cases a with
  | mk la =>
    cases b with
    | mk lb =>
      cases c with
      | mk lc =>
        show String.mk (la ++ lb ++ lc) = String.mk (la ++ (lb ++ lc))
        rw [List.append_assoc]

theorem validNameB_of_E (n : String) (h : validNameE n = .ok ()) :
    validNameB n = true := by
  unfold validNameE at h
  unfold validNameB
  by_cases h1 : strTrim n = ""
  · rw [if_pos h1] at h; cases h
  · rw [if_neg h1] at h
    by_cases h2 : n ∈ RESERVED_KEYWORDS
    · rw [if_pos h2] at h; cases h
    · simp [h1, h2]

theorem normalizeAP_poss (act poss : Option String) (a p : String)
    (h : normalizeAP act poss = .ok (a, p)) : p = "own" ∨ p = "any" := by
  unfold normalizeAP at h
  cases act with
  | none => cases h
  | some s =>
    cases hj : jsOrStr poss ((strSplit s (fun c => c = ':')).get? 1) with
    | none =>
      simp only [hj] at h
      cases h
      exact Or.inr rfl
    | some q =>
      simp only [hj] at h
      by_cases hq : q = ""
      · rw [if_pos hq] at h
        cases h
        exact Or.inr rfl
      · rw [if_neg hq] at h
        by_cases hqa : q = "any" ∨ q = "own"
        · rw [if_pos hqa] at h
          cases h
          exact hqa.symm
        · rw [if_neg hqa] at h
          cases h

theorem normalizeAccessInfo_all_ap (acc : AccessInfo) (na : NAccess)
    (h : normalizeAccessInfo acc true = .ok na) :
    ∃ a p, na.action = some a ∧ na.possession = some p
      ∧ (p = "own" ∨ p = "any") := by
  unfold normalizeAccessInfo at h
  by_cases hs : toStringArray acc.subject = [] ∨
      ¬ isFilledStringArray (toStringArray acc.subject) = true
  · rw [if_pos hs] at h; cases h
  · rw [if_neg hs] at h
    by_cases hr : toStringArray acc.resource = [] ∨
        ¬ isFilledStringArray (toStringArray acc.resource) = true
    · rw [if_pos hr] at h; cases h
    · rw [if_neg hr] at h
      simp only [if_true] at h
      cases hap : normalizeAP acc.action acc.possession with
      | error e => rw [hap] at h; cases h
      | ok q =>
        obtain ⟨a, p⟩ := q
        rw [hap] at h
        cases h
        exact ⟨a, p, rfl, rfl, normalizeAP_poss _ _ _ _ hap⟩

/-! ## onlyAddsKey machinery -/

theorem onlyAddsKey_refl (g : Grants) (K : String) : onlyAddsKey g g K :=
  fun _ _ _ h => Or.inl h

theorem onlyAddsKey_trans (g₁ g₂ g₃ : Grants) (K : String)
    (h1 : onlyAddsKey g₁ g₂ K) (h2 : onlyAddsKey g₂ g₃ K) :
    onlyAddsKey g₁ g₃ K := by
  intro s r k h
  rcases h2 s r k h with h | h
  · exact h1 s r k h
  · exact Or.inr h

theorem lookup3_alSet (g : Grants) (s : String) (role : RoleEntry)
    (s' r k : String) :
    lookup3 (alSet g s role) s' r k
      = if s' = s then
          (match alFind role.res r with
           | Option.none => Option.none
           | some re => alFind re k)
        else lookup3 g s' r k := by
  by_cases hs : s' = s
  · subst hs
    rw [if_pos rfl]
    unfold lookup3
    rw [alFind_alSet_self]
  · rw [if_neg hs]
    unfold lookup3
    rw [alFind_alSet_ne _ _ _ _ (fun hh => hs hh.symm)]

theorem alFind_alSet_ne_none {α : Type} (l : List (String × α))
    (k₀ k : String) (v : α)
    (h : ¬ alFind (alSet l k₀ v) k = Option.none) :
    k = k₀ ∨ ¬ alFind l k = Option.none := by
  by_cases hk : k = k₀
  · exact Or.inl hk
  · right
    rw [alFind_alSet_ne _ _ _ _ (fun hh => hk hh.symm)] at h
    exact h

theorem ensureSubject_onlyAdds (s : String) (g g' : Grants) (u : Unit)
    (K : String) (h : ensureSubject false s g = (.ok u, g')) :
    onlyAddsKey g g' K := by
  unfold ensureSubject at h
  by_cases hhas : alHas g s = true
  · rw [if_pos hhas] at h
    cases h
    exact onlyAddsKey_refl _ _
  · rw [if_neg hhas] at h
    simp only [Bool.false_eq_true, if_false, Prod.mk.injEq] at h
    obtain ⟨-, hg⟩ := h
    subst hg
    intro s' r k hk
    rw [lookup3_alSet] at hk
    by_cases hs : s' = s
    · rw [if_pos hs] at hk
      simp [alFind] at hk
    · rw [if_neg hs] at hk
      exact Or.inl hk

theorem ensureResource_onlyAdds (s r : String) (g g' : Grants) (u : Unit)
    (K : String) (h : ensureResource false s r g = (.ok u, g')) :
    onlyAddsKey g g' K := by
  unfold ensureResource at h
  cases hf : alFind g s with
  | none => simp [hf] at h
  | some role =>
    simp only [hf] at h
    by_cases hhas : alHas role.res r = true
    · rw [if_pos hhas] at h
      cases h
      exact onlyAddsKey_refl _ _
    · rw [if_neg hhas] at h
      simp only [Bool.false_eq_true, if_false, Prod.mk.injEq] at h
      obtain ⟨-, hg⟩ := h
      subst hg
      intro s' r' k hk
      rw [lookup3_alSet] at hk
      by_cases hs : s' = s
      · rw [if_pos hs] at hk
        subst hs
        by_cases hr : r' = r
        · subst hr
          rw [alFind_alSet_self] at hk
          simp [alFind] at hk
        · rw [alFind_alSet_ne _ _ _ _ (fun hh => hr hh.symm)] at hk
          left
          simp only [lookup3, hf]
          exact hk
      · rw [if_neg hs] at hk
        exact Or.inl hk

theorem writePerm_onlyAdds (s r K : String) (attrs : Attrs)
    (g g' : Grants) (u : Unit)
    (hvs : validNameB s = true) (hvr : validNameB r = true)
    (h : writePerm false s r K attrs g = (.ok u, g')) :
    onlyAddsKey g g' K := by
  unfold writePerm at h
  cases hf : alFind g s with
  | none => simp [hf] at h
  | some role =>
    simp only [hf] at h
    cases hr : alFind role.res r with
    | none => simp [hr] at h
    | some re =>
      simp only [hr] at h
      simp only [Bool.false_eq_true, if_false, Prod.mk.injEq] at h
      obtain ⟨-, hg⟩ := h
      subst hg
      intro s' r' k hk
      rw [lookup3_alSet] at hk
      by_cases hs : s' = s
      · rw [if_pos hs] at hk
        subst hs
        by_cases hr' : r' = r
        · subst hr'
          rw [alFind_alSet_self] at hk
          rcases alFind_alSet_ne_none _ _ _ _ hk with hk | hk
          · exact Or.inr ⟨hvs, hvr, hk⟩
          · left
            simp only [lookup3, hf, hr]
            exact hk
        · rw [alFind_alSet_ne _ _ _ _ (fun hh => hr' hh.symm)] at hk
          left
          simp only [lookup3, hf]
          exact hk
      · rw [if_neg hs] at hk
        exact Or.inl hk

theorem commitResLoop_onlyAdds (s K : String) (attrs : Attrs)
    (hvs : validNameB s = true) :
    ∀ (rs : List String) (g g' : Grants) (u : Unit),
      commitResLoop false s K attrs rs g = (.ok u, g') →
      onlyAddsKey g g' K := by
  intro rs
  induction rs with
  | nil =>
    intro g g' u h
    cases h
    exact onlyAddsKey_refl _ _
  | cons r rest ih =>
    intro g g' u h
    unfold commitResLoop at h
    cases hv : validNameE r with
    | error e => simp [hv] at h
    | ok _ =>
      simp only [hv] at h
      cases he : ensureResource false s r g with
      | mk er g₁ =>
        rw [he] at h
        cases er with
        | error e => simp at h
        | ok u₁ =>
          simp only at h
          cases hw : writePerm false s r K attrs g₁ with
          | mk wr g₂ =>
            rw [hw] at h
            cases wr with
            | error e => simp at h
            | ok u₂ =>
              simp only at h
              exact onlyAddsKey_trans _ _ _ _
                (ensureResource_onlyAdds s r g g₁ u₁ K he)
                (onlyAddsKey_trans _ _ _ _
                  (writePerm_onlyAdds s r K attrs g₁ g₂ u₂ hvs
                    (validNameB_of_E r hv) hw)
                  (ih g₂ g' u h))

theorem commitSubjLoop_onlyAdds (K : String) (attrs : Attrs)
    (resources : List String) :
    ∀ (ss : List String) (g g' : Grants) (u : Unit),
      commitSubjLoop false K attrs resources ss g = (.ok u, g') →
      onlyAddsKey g g' K := by
  intro ss
  induction ss with
  | nil =>
    intro g g' u h
    cases h
    exact onlyAddsKey_refl _ _
  | cons s rest ih =>
    intro g g' u h
    unfold commitSubjLoop at h
    cases hv : validNameE s with
    | error e => simp [hv] at h
    | ok _ =>
      simp only [hv] at h
      cases he : ensureSubject false s g with
      | mk er g₁ =>
        rw [he] at h
        cases er with
        | error e => simp at h
        | ok u₁ =>
          simp only at h
          cases hc : commitResLoop false s K attrs resources g₁ with
          | mk cr g₂ =>
            rw [hc] at h
            cases cr with
            | error e => simp at h
            | ok u₂ =>
              simp only at h
              exact onlyAddsKey_trans _ _ _ _
                (ensureSubject_onlyAdds s g g₁ u₁ K he)
                (onlyAddsKey_trans _ _ _ _
                  (commitResLoop_onlyAdds s K attrs
                    (validNameB_of_E s hv) resources g₁ g₂ u₂ hc)
                  (ih g₂ g' u h))

/-- C5 (amended): the normalizing commit path can only create entries
at validated subject and resource names whose action-possession key
carries a possession suffix own or any; every other stored key must
already have been in the store.  (As stated the claim is false: a
nested bulk-load never validates the action-possession keys at all —
the source splits the key and then ignores the parts.) -/
theorem claim5_commit_key_shape (g : Grants) (acc : AccessInfo)
    (u : Unit) (g' : Grants)
    (h : commitToGrants false acc true g = (.ok u, g')) :
    ∀ s r k, ¬ lookup3 g' s r k = Option.none →
      ¬ lookup3 g s r k = Option.none
      ∨ (validNameB s = true ∧ validNameB r = true ∧
          ∃ a, k = a ++ ":own" ∨ k = a ++ ":any") := by
  unfold commitToGrants at h
  cases hn : normalizeAccessInfo acc true with
  | error e => simp [hn] at h
  | ok na =>
    simp only [hn] at h
    obtain ⟨a, p, ha, hp, hpv⟩ := normalizeAccessInfo_all_ap acc na hn
    have hadds := commitSubjLoop_onlyAdds
      (jsStr na.action ++ ":" ++ jsStr na.possession) na.attributes
      na.resource na.subject g g' u h
    intro s r k hk
    rcases hadds s r k hk with hold | ⟨hvs, hvr, hkk⟩
    · exact Or.inl hold
    · right
      refine ⟨hvs, hvr, a, ?_⟩
      rw [ha, hp] at hkk
      rcases hpv with hpv | hpv
      · left
        rw [hkk, hpv]
        rw [strAppend_assoc]
        rfl
      · right
        rw [hkk, hpv]
        rw [strAppend_assoc]
        rfl

/-- C5 counterexample: a nested bulk-load accepts an action-possession
key that is not of the normalized CRUD form at all — the store then
contains the key bogus, violating the claimed invariant on reachable
stores. -/
theorem claim5_counterexample :
    getInspectedGrants
        (.mapping [("r", ⟨Option.none, [("res", [("bogus", ["*"])])]⟩)])
      = .ok [("r", ⟨Option.none, [("res", [("bogus", ["*"])])]⟩)]
    ∧ ¬ lookup3 [("r", ⟨Option.none, [("res", [("bogus", ["*"])])]⟩)]
        "r" "res" "bogus" = Option.none
    ∧ claimNormalizedKey "bogus" = false := by
  refine ⟨by decide, by decide, by decide⟩

/-- C5 witness: the commit-path key shape at a concrete commit. -/
theorem claim5_witness :
    ¬ lookup3 ([] : Grants) "u" "video" "create:any" = Option.none
    ∨ (validNameB "u" = true ∧ validNameB "video" = true ∧
        ∃ a, "create:any" = a ++ ":own" ∨ "create:any" = a ++ ":any") :=
  claim5_commit_key_shape [] ⟨.str "u", .str "video", .none, some "create",
      Option.none, false⟩ ()
    [("u", ⟨Option.none, [("video", [("create:any", ["*"])])]⟩)]
    (by decide) "u" "video" "create:any" (by decide)

/-! ## C8: flat-list / nested-mapping load equivalence -/

theorem alFind_mem {α : Type} (l : List (String × α)) (k : String) (v : α)
    (h : alFind l k = some v) : (k, v) ∈ l := by
  induction l with
  | nil => cases h
  | cons p t ih =>
    obtain ⟨k', v'⟩ := p
    by_cases hk : k' = k
    · rw [alFind, if_pos hk] at h
      injection h with h
      subst h
      rw [← hk]
      exact List.mem_cons_self _ _
    · rw [alFind, if_neg hk] at h
      exact List.mem_cons_of_mem _ (ih h)

theorem mem_keys_alFind {α : Type} (l : List (String × α)) (k : String)
    (h : k ∈ alKeys l) : ∃ v, alFind l k = some v := by
  induction l with
  | nil => simp [alKeys] at h
  | cons p t ih =>
    obtain ⟨k', v'⟩ := p
    by_cases hk : k' = k
    · exact ⟨v', by simp [alFind, hk]⟩
    · simp only [alKeys, List.map_cons, List.mem_cons] at h
      rcases h with h | h
      · exact absurd h.symm hk
      · obtain ⟨v, hv⟩ := ih (by simpa [alKeys] using h)
        exact ⟨v, by simp [alFind, hk, hv]⟩

theorem validNameB_trim (n : String) (h : validNameB n = true) :
    ¬ strTrim n = "" := by
  unfold validNameB at h
  simp only [Bool.and_eq_true, decide_eq_true_eq] at h
  exact h.1

theorem apRoundTrip_spec (k : String) (h : apRoundTrip k = true) :
    ∃ a p, normalizeAP (some k) Option.none = .ok (a, p)
      ∧ a ++ ":" ++ p = k := by
  unfold apRoundTrip at h
  cases hap : normalizeAP (some k) Option.none with
  | error e => simp only [hap] at h; exact Bool.noConfusion h
  | ok q =>
    obtain ⟨a, p⟩ := q
    simp only [hap] at h
    exact ⟨a, p, rfl, of_decide_eq_true h⟩

theorem validResourceObjectE_ok (re : ResEntry)
    (h : ∀ p ∈ re, p.2 = [] ∨ isFilledStringArray p.2 = true) :
    validResourceObjectE re = .ok () := by
  induction re with
  | nil => rfl
  | cons p t ih =>
    obtain ⟨k, attrs⟩ := p
    have h1 := h (k, attrs) (List.mem_cons_self _ _)
    rw [validResourceObjectE, if_pos h1]
    exact ih (fun q hq => h q (List.mem_cons_of_mem _ hq))

theorem resFold_ok (l : List (String × ResEntry))
    (h : ∀ p ∈ l, validNameB p.1 = true
      ∧ validResourceObjectE p.2 = .ok ()) :
    l.foldl
      (fun (acc : Except AcErr Unit) (p : String × ResEntry) =>
        match acc with
        | .error e => .error e
        | .ok _ =>
          if validNameB p.1 then validResourceObjectE p.2
          else .error (.reservedResource p.1)) (.ok ()) = .ok () := by
  induction l with
  | nil => rfl
  | cons p t ih =>
    have h1 := h p (List.mem_cons_self _ _)
    simp only [List.foldl_cons]
    rw [if_pos h1.1, h1.2]
    exact ih (fun q hq => h q (List.mem_cons_of_mem _ hq))

theorem validRoleObjectM_ok (fuel : Nat) (n : String) (g : Grants)
    (role : RoleEntry) (hf : alFind g n = some role)
    (hc : canonRole role) : validRoleObjectM fuel n g = (.ok (), g) := by
  obtain ⟨hext, _, _, hall⟩ := hc
  have hfold := resFold_ok role.res
    (fun p hp => ⟨(hall p hp).1,
      validResourceObjectE_ok p.2 (fun q hq => ((hall p hp).2.2.2 q hq).2)⟩)
  simp only [validRoleObjectM, hf, hfold, hext]

theorem inspectRoles_ok (fuel : Nat) (g : Grants) :
    ∀ names : List String,
      (∀ n ∈ names, validNameB n = true
        ∧ ∃ role, alFind g n = some role ∧ canonRole role) →
      inspectRoles fuel names g = (.ok (), g) := by
  intro names
  induction names with
  | nil => intro _; rfl
  | cons n t ih =>
    intro h
    obtain ⟨hv, role, hf, hc⟩ := h n (List.mem_cons_self _ _)
    simp only [inspectRoles, validNameE_of_B n hv,
      validRoleObjectM_ok fuel n g role hf hc]
    exact ih (fun m hm => h m (List.mem_cons_of_mem _ hm))

theorem mappingLoad (g : Grants) (hc : canonGrants g) :
    getInspectedGrants (.mapping g) = .ok g := by
  have hall : ∀ n ∈ alKeys g, validNameB n = true
      ∧ ∃ role, alFind g n = some role ∧ canonRole role := by
    intro n hn
    obtain ⟨v, hv⟩ := mem_keys_alFind g n hn
    have hmem := alFind_mem g n v hv
    exact ⟨(hc.2 (n, v) hmem).1, v, hv, (hc.2 (n, v) hmem).2⟩
  simp only [getInspectedGrants,
    inspectRoles_ok (g.length + 1) g (alKeys g) hall]

theorem normalizeAccessInfo_record (s r k : String) (attrs : Attrs)
    (a p : String) (hvs : validNameB s = true) (hvr : validNameB r = true)
    (hap : normalizeAP (some k) Option.none = .ok (a, p)) :
    normalizeAccessInfo (recordOf s r k attrs) true
      = .ok ⟨[s], [r], attrs, some a, some p, false⟩ := by
  have hs' : ¬ strTrim s = "" := validNameB_trim s hvs
  have hr' : ¬ strTrim r = "" := validNameB_trim r hvr
  have hsf : isFilledStringArray [s] = true := by
    simp [isFilledStringArray, hs']
  have hrf : isFilledStringArray [r] = true := by
    simp [isFilledStringArray, hr']
  cases attrs with
  | nil =>
    simp [normalizeAccessInfo, recordOf, toStringArray, hsf, hrf, hap,
      isEmptyArrayV]
  | cons x xs =>
    simp [normalizeAccessInfo, recordOf, toStringArray, hsf, hrf, hap,
      show isEmptyArrayV (StrList.list (x :: xs)) = false from rfl]

theorem ensureSubject_eq (s : String) (g : Grants) :
    ensureSubject false s g
      = (.ok (), match alFind g s with
          | some _ => g
          | Option.none => alSet g s ⟨Option.none, []⟩) := by
  cases hfs : alFind g s <;> simp [ensureSubject, alHas, hfs]

theorem ensureResource_eq (s r : String) (g : Grants) (role : RoleEntry)
    (hfs : alFind g s = some role) :
    ensureResource false s r g
      = (.ok (), match alFind role.res r with
          | some _ => g
          | Option.none => alSet g s ⟨role.ext, alSet role.res r []⟩) := by
  cases hfr : alFind role.res r <;>
    simp [ensureResource, hfs, alHas, hfr]

theorem writePerm_eq (s r ap : String) (attrs : Attrs) (g : Grants)
    (role : RoleEntry) (re : ResEntry) (hfs : alFind g s = some role)
    (hfr : alFind role.res r = some re) :
    writePerm false s r ap attrs g
      = (.ok (), alSet g s ⟨role.ext, alSet role.res r (alSet re ap attrs)⟩) := by
  simp [writePerm, hfs, hfr]

theorem commit_record (g : Grants) (s r k : String) (attrs : Attrs)
    (a p : String) (hvs : validNameB s = true) (hvr : validNameB r = true)
    (hap : normalizeAP (some k) Option.none = .ok (a, p))
    (hk : a ++ ":" ++ p = k) :
    commitToGrants false (recordOf s r k attrs) true g
      = (.ok (), gWrite g s r k attrs) := by
  unfold commitToGrants
  simp only [normalizeAccessInfo_record s r k attrs a p hvs hvr hap, jsStr]
  rw [hk]
  have hv_s : validNameE s = .ok () := validNameE_of_B s hvs
  have hv_r : validNameE r = .ok () := validNameE_of_B r hvr
  cases hfs : alFind g s with
  | none =>
    have h1 : ensureSubject false s g
        = (.ok (), alSet g s ⟨Option.none, []⟩) := by
      rw [ensureSubject_eq]; simp only [hfs]
    have h2 : ensureResource false s r (alSet g s ⟨Option.none, []⟩)
        = (.ok (), alSet g s ⟨Option.none, [(r, [])]⟩) := by
      rw [ensureResource_eq s r _ ⟨Option.none, []⟩ (alFind_alSet_self g s _)]
      simp only [alFind, alSet_alSet]
      rfl
    have h3 : writePerm false s r k attrs (alSet g s ⟨Option.none, [(r, [])]⟩)
        = (.ok (), alSet g s ⟨Option.none, [(r, [(k, attrs)])]⟩) := by
      rw [writePerm_eq s r k attrs _ ⟨Option.none, [(r, [])]⟩ []
        (alFind_alSet_self g s _) (by simp [alFind])]
      rw [alSet_alSet]
      have hinner : alSet [(r, ([] : ResEntry))] r (alSet [] k attrs)
          = [(r, [(k, attrs)])] := by simp [alSet]
      rw [hinner]
    simp only [commitSubjLoop, hv_s, h1, commitResLoop, hv_r, h2, h3]
    simp only [gWrite, hfs]
  | some role =>
    have h1 : ensureSubject false s g = (.ok (), g) := by
      rw [ensureSubject_eq]; simp only [hfs]
    cases hfr : alFind role.res r with
    | none =>
      have h2 : ensureResource false s r g
          = (.ok (), alSet g s ⟨role.ext, alSet role.res r []⟩) := by
        rw [ensureResource_eq s r g role hfs]; simp only [hfr]
      have h3 : writePerm false s r k attrs
            (alSet g s ⟨role.ext, alSet role.res r []⟩)
          = (.ok (), alSet g s ⟨role.ext, alSet role.res r [(k, attrs)]⟩) := by
        rw [writePerm_eq s r k attrs _ ⟨role.ext, alSet role.res r []⟩ []
          (alFind_alSet_self g s _) (alFind_alSet_self role.res r _)]
        rw [alSet_alSet, alSet_alSet]
        rfl
      simp only [commitSubjLoop, hv_s, h1, commitResLoop, hv_r, h2, h3]
      simp only [gWrite, hfs, hfr]
    | some re =>
      have h2 : ensureResource false s r g = (.ok (), g) := by
        rw [ensureResource_eq s r g role hfs]; simp only [hfr]
      have h3 := writePerm_eq s r k attrs g role re hfs hfr
      simp only [commitSubjLoop, hv_s, h1, commitResLoop, hv_r, h2, h3]
      simp only [gWrite, hfs, hfr]

theorem nodupKeys_cons {α : Type} (p : String × α) (t : List (String × α))
    (h : nodupKeys (p :: t)) : p.1 ∉ alKeys t ∧ nodupKeys t := by
  simp only [nodupKeys, alKeys, List.map_cons, List.nodup_cons] at h
  exact ⟨by simpa [alKeys] using h.1, by simpa [nodupKeys, alKeys] using h.2⟩

theorem mem_alKeys_of_mem {α : Type} (p : String × α) (l : List (String × α))
    (h : p ∈ l) : p.1 ∈ alKeys l := by
  unfold alKeys
  exact List.mem_map.mpr ⟨p, h, rfl⟩

theorem alKeys_append {α : Type} (l₁ l₂ : List (String × α)) :
    alKeys (l₁ ++ l₂) = alKeys l₁ ++ alKeys l₂ := by
  simp [alKeys]

theorem commitAll_append (l₁ l₂ : List AccessInfo) (g g₁ : Grants)
    (h : commitAll l₁ g = (.ok (), g₁)) :
    commitAll (l₁ ++ l₂) g = commitAll l₂ g₁ := by
  induction l₁ generalizing g with
  | nil =>
    simp only [commitAll] at h
    injection h with h1 h2
    subst h2
    simp
  | cons x t ih =>
    simp only [commitAll, List.cons_append] at h ⊢
    cases hc : commitToGrants false x true g with
    | mk e g' =>
      simp only [hc] at h ⊢
      cases e with
      | error e => exact absurd h (by simp)
      | ok u => exact ih g' h

theorem flatLoadKeys (s r : String) (done : Grants)
    (rdone : List (String × ResEntry))
    (hvs : validNameB s = true) (hvr : validNameB r = true)
    (hsd : s ∉ alKeys done) (hrd : r ∉ alKeys rdone) :
    ∀ (ks reAcc : ResEntry),
      (∀ p ∈ ks, apRoundTrip p.1 = true) →
      (∀ p ∈ ks, p.1 ∉ alKeys reAcc) →
      nodupKeys ks →
      commitAll (recordsOfRes s r ks)
          (done ++ [(s, ⟨Option.none, rdone ++ [(r, reAcc)]⟩)])
        = (.ok (),
            done ++ [(s, ⟨Option.none, rdone ++ [(r, reAcc ++ ks)]⟩)]) := by
  intro ks
  induction ks with
  | nil =>
    intro reAcc _ _ _
    simp [recordsOfRes, commitAll]
  | cons q ks' ih =>
    intro reAcc hrt hdisj hnd
    obtain ⟨k, attrs⟩ := q
    obtain ⟨a, p, hap, hk⟩ :=
      apRoundTrip_spec k (hrt (k, attrs) (List.mem_cons_self _ _))
    have hstep := commit_record
      (done ++ [(s, ⟨Option.none, rdone ++ [(r, reAcc)]⟩)])
      s r k attrs a p hvs hvr hap hk
    have hf1 : alFind
        (done ++ [(s, (⟨Option.none, rdone ++ [(r, reAcc)]⟩ : RoleEntry))]) s
        = some ⟨Option.none, rdone ++ [(r, reAcc)]⟩ :=
      alFind_append_mid done [] s _ hsd
    have hf2 : alFind (rdone ++ [(r, reAcc)]) r = some reAcc :=
      alFind_append_mid rdone [] r _ hrd
    have hG : gWrite (done ++ [(s, ⟨Option.none, rdone ++ [(r, reAcc)]⟩)])
          s r k attrs
        = done ++
            [(s, ⟨Option.none, rdone ++ [(r, reAcc ++ [(k, attrs)])]⟩)] := by
      simp only [gWrite, hf1, hf2]
      rw [alSet_absent reAcc k attrs
        (hdisj (k, attrs) (List.mem_cons_self _ _))]
      rw [alSet_append_mid rdone [] r reAcc _ hrd,
        alSet_append_mid done [] s _ _ hsd]
    rw [show recordsOfRes s r ((k, attrs) :: ks')
        = recordOf s r k attrs :: recordsOfRes s r ks' from rfl]
    simp only [commitAll, hstep, hG]
    have hih := ih (reAcc ++ [(k, attrs)])
      (fun q hq => hrt q (List.mem_cons_of_mem _ hq))
      (fun q hq => by
        intro hmem2
        rw [alKeys_append] at hmem2
        rcases List.mem_append.mp hmem2 with hmem2 | hmem2
        · exact hdisj q (List.mem_cons_of_mem _ hq) hmem2
        · simp only [alKeys, List.map_cons, List.map_nil,
            List.mem_singleton] at hmem2
          exact (nodupKeys_cons (k, attrs) ks' hnd).1
            (hmem2 ▸ mem_alKeys_of_mem q ks' hq))
      (nodupKeys_cons (k, attrs) ks' hnd).2
    rw [hih]
    simp [List.append_assoc]

theorem flatLoadRes (s : String) (done : Grants)
    (hvs : validNameB s = true) (hsd : s ∉ alKeys done) :
    ∀ (rs : List (String × ResEntry)) (rdone : List (String × ResEntry)),
      (∀ p ∈ rs, validNameB p.1 = true ∧ canonRes p.2) →
      nodupKeys rs →
      (∀ p ∈ rs, p.1 ∉ alKeys rdone) →
      commitAll (rs.flatMap (fun p => recordsOfRes s p.1 p.2))
          (done ++ [(s, ⟨Option.none, rdone⟩)])
        = (.ok (), done ++ [(s, ⟨Option.none, rdone ++ rs⟩)]) := by
  intro rs
  induction rs with
  | nil =>
    intro rdone _ _ _
    simp [commitAll]
  | cons q rs' ih =>
    intro rdone hcan hnd hdisj
    obtain ⟨r, re⟩ := q
    obtain ⟨hvr, hcre⟩ := hcan (r, re) (List.mem_cons_self _ _)
    obtain ⟨hre_ne, hre_nd, hre_all⟩ := hcre
    cases re with
    | nil => exact absurd rfl hre_ne
    | cons q0 re' =>
    obtain ⟨k, attrs⟩ := q0
    have hrd : r ∉ alKeys rdone :=
      hdisj (r, (k, attrs) :: re') (List.mem_cons_self _ _)
    obtain ⟨a, p, hap, hk⟩ :=
      apRoundTrip_spec k (hre_all (k, attrs) (List.mem_cons_self _ _)).1
    have hf1 : alFind (done ++ [(s, (⟨Option.none, rdone⟩ : RoleEntry))]) s
        = some ⟨Option.none, rdone⟩ := alFind_append_mid done [] s _ hsd
    have hf2 : alFind rdone r = Option.none := alFind_absent rdone r hrd
    have hstep := commit_record (done ++ [(s, ⟨Option.none, rdone⟩)])
      s r k attrs a p hvs hvr hap hk
    have hG : gWrite (done ++ [(s, ⟨Option.none, rdone⟩)]) s r k attrs
        = done ++ [(s, ⟨Option.none, rdone ++ [(r, [(k, attrs)])]⟩)] := by
      simp only [gWrite, hf1, hf2]
      rw [alSet_absent rdone r _ hrd, alSet_append_mid done [] s _ _ hsd]
    rw [show (((r, (k, attrs) :: re') :: rs').flatMap
          (fun p => recordsOfRes s p.1 p.2))
        = recordOf s r k attrs :: (recordsOfRes s r re'
            ++ rs'.flatMap (fun p => recordsOfRes s p.1 p.2)) from by
      simp [recordsOfRes, List.flatMap_cons]]
    simp only [commitAll, hstep, hG]
    have hkeys := flatLoadKeys s r done rdone hvs hvr hsd hrd re' [(k, attrs)]
      (fun q hq => (hre_all q (List.mem_cons_of_mem _ hq)).1)
      (fun q hq => by
        intro hmem2
        simp only [alKeys, List.map_cons, List.map_nil,
          List.mem_singleton] at hmem2
        exact (nodupKeys_cons (k, attrs) re' hre_nd).1
          (hmem2 ▸ mem_alKeys_of_mem q re' hq))
      (nodupKeys_cons (k, attrs) re' hre_nd).2
    rw [commitAll_append _ _ _ _ hkeys]
    simp only [List.singleton_append]
    have hih := ih (rdone ++ [(r, (k, attrs) :: re')])
      (fun q hq => hcan q (List.mem_cons_of_mem _ hq))
      (nodupKeys_cons _ rs' hnd).2
      (fun q hq => by
        intro hmem2
        rw [alKeys_append] at hmem2
        rcases List.mem_append.mp hmem2 with hmem2 | hmem2
        · exact hdisj q (List.mem_cons_of_mem _ hq) hmem2
        · simp only [alKeys, List.map_cons, List.map_nil,
            List.mem_singleton] at hmem2
          exact (nodupKeys_cons (r, (k, attrs) :: re') rs' hnd).1
            (hmem2 ▸ mem_alKeys_of_mem q rs' hq))
    rw [hih]
    simp [List.append_assoc]

theorem flatLoadGrants :
    ∀ (gs : Grants) (done : Grants),
      (∀ p ∈ gs, validNameB p.1 = true ∧ canonRole p.2) →
      nodupKeys gs →
      (∀ p ∈ gs, p.1 ∉ alKeys done) →
      commitAll (gs.flatMap (fun p => recordsOfRole p.1 p.2)) done
        = (.ok (), done ++ gs) := by
  intro gs
  induction gs with
  | nil =>
    intro done _ _ _
    simp [commitAll]
  | cons q gs' ih =>
    intro done hcan hnd hdisj
    obtain ⟨s, role⟩ := q
    obtain ⟨hvs, hcrole⟩ := hcan (s, role) (List.mem_cons_self _ _)
    obtain ⟨ext, res⟩ := role
    obtain ⟨hext, hres_ne, hres_nd, hres_all⟩ := hcrole
    replace hext : ext = Option.none := hext
    subst hext
    cases res with
    | nil => exact absurd rfl hres_ne
    | cons q0 rs' =>
    obtain ⟨r, re⟩ := q0
    obtain ⟨hvr, hcre⟩ := hres_all (r, re) (List.mem_cons_self _ _)
    obtain ⟨hre_ne, hre_nd, hre_all⟩ := hcre
    cases re with
    | nil => exact absurd rfl hre_ne
    | cons q1 re' =>
    obtain ⟨k, attrs⟩ := q1
    obtain ⟨a, p, hap, hk⟩ :=
      apRoundTrip_spec k (hre_all (k, attrs) (List.mem_cons_self _ _)).1
    have hsd : s ∉ alKeys done :=
      hdisj (s, ⟨Option.none, (r, (k, attrs) :: re') :: rs'⟩)
        (List.mem_cons_self _ _)
    have hf1 : alFind done s = Option.none := alFind_absent done s hsd
    have hstep := commit_record done s r k attrs a p hvs hvr hap hk
    have hG : gWrite done s r k attrs
        = done ++ [(s, ⟨Option.none, [(r, [(k, attrs)])]⟩)] := by
      simp only [gWrite, hf1]
      rw [alSet_absent done s _ hsd]
    rw [show (((s, (⟨Option.none, (r, (k, attrs) :: re') :: rs'⟩
            : RoleEntry)) :: gs').flatMap (fun p => recordsOfRole p.1 p.2))
        = recordOf s r k attrs :: (recordsOfRes s r re'
            ++ (rs'.flatMap (fun p => recordsOfRes s p.1 p.2)
              ++ gs'.flatMap (fun p => recordsOfRole p.1 p.2))) from by
      simp [recordsOfRole, recordsOfRes, List.flatMap_cons,
        List.append_assoc]]
    simp only [commitAll, hstep, hG]
    have hkeys := flatLoadKeys s r done [] hvs hvr hsd
      (by simp [alKeys]) re' [(k, attrs)]
      (fun q hq => (hre_all q (List.mem_cons_of_mem _ hq)).1)
      (fun q hq => by
        intro hmem2
        simp only [alKeys, List.map_cons, List.map_nil,
          List.mem_singleton] at hmem2
        exact (nodupKeys_cons (k, attrs) re' hre_nd).1
          (hmem2 ▸ mem_alKeys_of_mem q re' hq))
      (nodupKeys_cons (k, attrs) re' hre_nd).2
    simp only [List.nil_append] at hkeys
    rw [commitAll_append _ _ _ _ hkeys]
    simp only [List.singleton_append]
    have hres := flatLoadRes s done hvs hsd rs' [(r, (k, attrs) :: re')]
      (fun q hq => hres_all q (List.mem_cons_of_mem _ hq))
      (nodupKeys_cons _ rs' hres_nd).2
      (fun q hq => by
        intro hmem2
        simp only [alKeys, List.map_cons, List.map_nil,
          List.mem_singleton] at hmem2
        exact (nodupKeys_cons (r, (k, attrs) :: re') rs' hres_nd).1
          (hmem2 ▸ mem_alKeys_of_mem q rs' hq))
    rw [commitAll_append _ _ _ _ hres]
    simp only [List.singleton_append]
    have hih := ih (done ++ [(s, ⟨Option.none, (r, (k, attrs) :: re') :: rs'⟩)])
      (fun q hq => hcan q (List.mem_cons_of_mem _ hq))
      (nodupKeys_cons _ gs' hnd).2
      (fun q hq => by
        intro hmem2
        rw [alKeys_append] at hmem2
        rcases List.mem_append.mp hmem2 with hmem2 | hmem2
        · exact hdisj q (List.mem_cons_of_mem _ hq) hmem2
        · simp only [alKeys, List.map_cons, List.map_nil,
            List.mem_singleton] at hmem2
          exact (nodupKeys_cons _ gs' hnd).1
            (hmem2 ▸ mem_alKeys_of_mem q gs' hq))
    rw [hih]
    simp [List.append_assoc]

theorem recordsLoad (g : Grants) (hc : canonGrants g) :
    getInspectedGrants (.records (recordsOfGrants g)) = .ok g := by
  have h := flatLoadGrants g [] hc.2 hc.1 (by simp [alKeys])
  simp only [getInspectedGrants, recordsOfGrants, h]
  simp

/-- C8: for every canonical nested mapping (unique validated names, no
inheritance, non-empty canonical entries — exactly the stores a flat
record list can describe), bulk-loading the nested mapping and
bulk-loading the flat record list describing the same logical grants
both succeed with the very same store, so every query resolves
identically on the two loaded stores: the resulting Permissions carry
the same granted flag and the same attributes. -/
theorem claim8_flat_nested_equivalence (g : Grants) (hc : canonGrants g) :
    getInspectedGrants (.mapping g) = .ok g
    ∧ getInspectedGrants (.records (recordsOfGrants g)) = .ok g
    ∧ ∀ gm gf, getInspectedGrants (.mapping g) = .ok gm →
        getInspectedGrants (.records (recordsOfGrants g)) = .ok gf →
        ∀ (u : Attrs → Attrs → Attrs) (fuel : Nat) (q : QueryInfo),
          mkPermission u fuel gm q = mkPermission u fuel gf q := by
  refine ⟨mappingLoad g hc, recordsLoad g hc, ?_⟩
  intro gm gf hm hf u fuel q
  rw [mappingLoad g hc] at hm
  rw [recordsLoad g hc] at hf
  injection hm with hm
  injection hf with hf
  subst hm
  subst hf
  rfl

/-- C8 witness: the equivalence at a concrete two-subject store. -/
theorem claim8_witness :
    getInspectedGrants (.mapping g8sample) = .ok g8sample
    ∧ getInspectedGrants (.records (recordsOfGrants g8sample))
        = .ok g8sample
    ∧ ∀ gm gf, getInspectedGrants (.mapping g8sample) = .ok gm →
        getInspectedGrants (.records (recordsOfGrants g8sample)) = .ok gf →
        ∀ (u : Attrs → Attrs → Attrs) (fuel : Nat) (q : QueryInfo),
          mkPermission u fuel gm q = mkPermission u fuel gf q :=
  claim8_flat_nested_equivalence g8sample (by decide)

end AC
